import Mathlib

/-!
Shallow embedding of a ranked-retrieval search engine consisting of an
index builder (`index.py`) and a query engine (`search.py`).

External collaborators (the NLTK word/sentence tokenizers and the WordNet
lemmatizer) are modelled as components of an `Env` parameter: they are
deterministic string functions supplied from outside the program.  The
Python code iterates an *unordered* `set` when expanding a word into its
morphological roots; the iteration order of that set is modelled by the
`setOrder` field of `Env` (Python realises one such order per process,
depending on the string hash seed).

Machine integers are modelled as `Nat`/`Int` (no overflow is reachable:
Python integers are unbounded) and the floating point scores of the
ranker are modelled as `Rat`; `float("inf")` is modelled as `⊤` in
`WithTop`.
-/

namespace RRSE

/-- The apostrophe character. -/
def apos : Char := Char.ofNat 39

/-- Core of `dedupFirst`: drop every element already in `seen`,
keeping first occurrences. -/
def dedupFirstAux {α : Type} [DecidableEq α] (seen : List α) : List α → List α
  | [] => []
  | a :: l => if a ∈ seen then dedupFirstAux seen l else a :: dedupFirstAux (a :: seen) l

/-- Deduplicate a list keeping the first occurrence of every element,
as Python `list(dict.fromkeys(..))` does. -/
def dedupFirst {α : Type} [DecidableEq α] (l : List α) : List α := dedupFirstAux [] l

/-- The external services used by the two programs: the three lemmatizer
reductions, the NLTK word and sentence tokenizers, and the iteration
order Python's runtime realises on the unordered root `set`. -/
structure Env where
  lemDefault : String → String
  lemNoun : String → String
  lemVerb : String → String
  wordTok : String → List String
  sentTok : String → List String
  setOrder : List String → List String

/-- `find_root` of both `index.py` and `search.py`: the set
`{lemmatize(w), lemmatize(w, NOUN), lemmatize(w, VERB)}`, listed in the
iteration order the runtime realises on that unordered set. -/
def find_root (env : Env) (w : String) : List String :=
  env.setOrder (dedupFirst [env.lemDefault w, env.lemNoun w, env.lemVerb w])

/-- Python `str.isdigit` on a character list (ASCII fragment). -/
def isDigitL (l : List Char) : Bool := !l.isEmpty && l.all Char.isDigit

/-- Python `str.isalnum` on a character list (ASCII fragment). -/
def isAlnumL (l : List Char) : Bool := !l.isEmpty && l.all Char.isAlphanum

/-- Python `str.replace(xy, "")` for a two-character pattern `xy`:
leftmost non-overlapping occurrences removed, no rescan of the joins. -/
def removePair (x y : Char) : List Char → List Char
  | [] => []
  | [a] => [a]
  | a :: b :: rest =>
    if a = x ∧ b = y then removePair x y rest
    else a :: removePair x y (b :: rest)

/-- `token.lower().replace("'s", "").replace("s'", "")` (character-list
model of the Python string operations). -/
def lowerStripPoss (s : String) : List Char :=
  removePair 's' apos (removePair apos 's' (s.toList.map Char.toLower))

/-- `re.fullmatch(r"[a-z]\.[a-z]\.", token)`. -/
def isAbbrevL (l : List Char) : Bool :=
  match l with
  | [a, d1, b, d2] => a.isLower && d1 == '.' && b.isLower && d2 == '.'
  | _ => false

/-- Python `str.split(sep)` for a one-character separator. -/
def splitOnCharL (sep : Char) : List Char → List (List Char)
  | [] => [[]]
  | c :: rest =>
    let r := splitOnCharL sep rest
    if c = sep then [] :: r
    else (c :: r.headD []) :: r.tail

/-- `normalize_token` (identical in `index.py` and `search.py`): lowercase
and strip possessives, then emit the collapsed abbreviation, the digit
token, the root expansions of the hyphen segments (whole token when the
first segment is short), the root expansion of an alphanumeric word, or
nothing. -/
def normalize_token (env : Env) (token0 : String) : List String :=
  let cs := lowerStripPoss token0
  if isAbbrevL cs then [String.mk (cs.filter (fun c => c != '.'))]
  else if isDigitL cs then [String.mk cs]
  else if cs.contains '-' then
    let splited := splitOnCharL '-' cs
    if (splited.headD []).length < 3 then find_root env (String.mk cs)
    else ((splited.filter isAlnumL).map String.mk).flatMap (find_root env)
  else if isAlnumL cs then find_root env (String.mk cs)
  else []

/-- `re.sub(r"'s|s'", "", sentence)`: leftmost scan, the alternative
`'s` tried before `s'`, non-overlapping. -/
def removePossAux : List Char → List Char
  | [] => []
  | [a] => [a]
  | a :: b :: rest =>
    if a = apos ∧ b = 's' then removePossAux rest
    else if a = 's' ∧ b = apos then removePossAux rest
    else a :: removePossAux (b :: rest)

/-- Take exactly `n` digit characters off the front. -/
def splitDigits : ℕ → List Char → Option (List Char × List Char)
  | 0, l => some ([], l)
  | _ + 1, [] => none
  | n + 1, c :: l =>
    if c.isDigit then (splitDigits n l).map (fun dr => (c :: dr.1, dr.2)) else none

/-- Greedily take `(,\d\d\d)+` groups off the front; returns the matched
characters and the rest. -/
def commaGroups : List Char → List Char × List Char
  | c0 :: a :: b :: c :: rest =>
    if c0 = ',' ∧ a.isDigit ∧ b.isDigit ∧ c.isDigit then
      let gr := commaGroups rest
      (c0 :: a :: b :: c :: gr.1, gr.2)
    else ([], c0 :: a :: b :: c :: rest)
  | l => ([], l)

/-- Try to match `(\d{1,d})(,\d{3})+` anchored here with exactly `d`
leading digits. -/
def tryThousands (d : ℕ) (l : List Char) : Option (List Char × List Char) :=
  match splitDigits d l with
  | none => none
  | some dr =>
    let gr := commaGroups dr.2
    if gr.1 = [] then none else some (dr.1 ++ gr.1, gr.2)

/-- Match `(\d{1,3})(,\d{3})+` anchored at the head of `l` (the greedy
`\d{1,3}` backtracks from three digits down to one). -/
def matchThousands (l : List Char) : Option (List Char × List Char) :=
  match tryThousands 3 l with
  | some r => some r
  | none =>
    match tryThousands 2 l with
    | some r => some r
    | none => tryThousands 1 l

/-- `re.sub(r"(\d{1,3})(,\d{3})+", lambda m: m.group().replace(",", ""), s)`:
leftmost non-overlapping matches, each replaced by itself without commas.
The fuel argument (instantiated with the list length) only serves
termination; one unit is spent per scanned or matched position. -/
def subThousandsAux : ℕ → List Char → List Char
  | 0, l => l
  | _, [] => []
  | fuel + 1, a :: rest =>
    match matchThousands (a :: rest) with
    | some mr => mr.1.filter (fun c => c != ',') ++ subThousandsAux fuel mr.2
    | none => a :: subThousandsAux fuel rest

/-- The sentence preprocessing shared by `preprocess_sentence` in both
programs: strip possessive markers, then collapse thousands separators. -/
def preprocess_sentence_str (s : String) : String :=
  let l := removePossAux s.toList
  String.mk (subThousandsAux l.length l)

/-- The term emission sequence of `preprocess_sentence` of `search.py`
before its final deduplication: preprocess, word-tokenize, normalize
each token. -/
def rawQueryTerms (env : Env) (s : String) : List String :=
  (env.wordTok (preprocess_sentence_str s)).flatMap (normalize_token env)

/-- `preprocess_sentence` of `search.py`: preprocess, word-tokenize,
normalize each token, deduplicate keeping first occurrences. -/
def preprocess_sentence (env : Env) (s : String) : List String :=
  dedupFirst (rawQueryTerms env s)

/-- `tokenize_sentence` of `index.py`. -/
def tokenize_sentence (env : Env) (s : String) : List String :=
  (env.wordTok s).flatMap (normalize_token env)

/-- A posting `[id, position, line]` of the inverted index. -/
structure Posting where
  id : String
  pos : ℕ
  line : ℕ
deriving DecidableEq, Repr

/-- The inverted index: a Python dict `term -> list of postings`,
modelled as an association list in key insertion order. -/
abbrev IdxL := List (String × List Posting)

/-- `d[k].append(v)` on a `defaultdict(list)`: append to the entry of the
(first, hence unique) matching key, or insert a new key at the end. -/
def dictAppend {β : Type} : List (String × List β) → String → β → List (String × List β)
  | [], k, v => [(k, [v])]
  | (k0, vs) :: rest, k, v =>
    if k0 = k then (k0, vs ++ [v]) :: rest else (k0, vs) :: dictAppend rest k v

/-- `d[k] = upd(d[k])` on a `defaultdict` with default `dflt`. -/
def dictUpd {β : Type} (dflt : β) (upd : β → β) : List (String × β) → String → List (String × β)
  | [], k => [(k, upd dflt)]
  | (k0, v) :: rest, k =>
    if k0 = k then (k0, upd v) :: rest else (k0, v) :: dictUpd dflt upd rest k

/-- `file_index` of `index.py`: scan the lines of one document, sentence-split
each line, preprocess and tokenize each sentence, and append one posting per
emitted term while advancing the per-document position counter. -/
def file_index (env : Env) (id : String) (content : List String) (inv : IdxL) : IdxL :=
  (content.enum.foldl
    (fun acc nl =>
      (env.sentTok nl.2).foldl
        (fun acc2 cur =>
          (tokenize_sentence env (preprocess_sentence_str cur)).foldl
            (fun acc3 t => (dictAppend acc3.1 t ⟨id, acc3.2, nl.1⟩, acc3.2 + 1)) acc2)
        acc)
    (inv, 0)).1

/-- Lexicographic order on code points — Python's string comparison. -/
def charListLe : List Char → List Char → Bool
  | [], _ => true
  | _ :: _, [] => false
  | a :: as, b :: bs => if a = b then charListLe as bs else decide (a < b)

/-- `sorted(os.listdir(file_folder))`: the documents in ascending name
order (Python compares the names lexicographically by code point). -/
def sortByName (files : List (String × List String)) : List (String × List String) :=
  files.insertionSort (fun a b => charListLe a.1.toList b.1.toList = true)

instance : IsTotal (String × List String)
    (fun a b => charListLe a.1.toList b.1.toList = true) := by
  constructor
  intro a b
  suffices h : ∀ x y : List Char, charListLe x y = true ∨ charListLe y x = true from h _ _
  intro x
  induction x with
  | nil => intro y; left; rfl
  | cons a as ih =>
    intro y
    cases y with
    | nil => right; rfl
    | cons b bs =>
      by_cases hab : a = b
      · subst hab
        rcases ih bs with h | h
        · left
          show (if a = a then charListLe as bs else decide (a < a)) = true
          rw [if_pos rfl]
          exact h
        · right
          show (if a = a then charListLe bs as else decide (a < a)) = true
          rw [if_pos rfl]
          exact h
      · rcases lt_or_gt_of_ne hab with h | h
        · left
          show (if a = b then charListLe as bs else decide (a < b)) = true
          rw [if_neg hab]
          exact decide_eq_true h
        · right
          show (if b = a then charListLe bs as else decide (b < a)) = true
          rw [if_neg (fun hba : b = a => hab hba.symm)]
          exact decide_eq_true h

instance : IsTrans (String × List String)
    (fun a b => charListLe a.1.toList b.1.toList = true) := by
  constructor
  suffices h : ∀ x y z : List Char,
      charListLe x y = true → charListLe y z = true → charListLe x z = true by
    intro a b c h1 h2
    exact h _ _ _ h1 h2
  intro x
  induction x with
  | nil => intro y z _ _; rfl
  | cons a as ih =>
    intro y z h1 h2
    cases y with
    | nil => exact absurd h1 (by simp [charListLe])
    | cons b bs =>
      cases z with
      | nil => exact absurd h2 (by simp [charListLe])
      | cons c cs =>
        have h1b : (if a = b then charListLe as bs else decide (a < b)) = true := h1
        have h2b : (if b = c then charListLe bs cs else decide (b < c)) = true := h2
        show (if a = c then charListLe as cs else decide (a < c)) = true
        by_cases hab : a = b <;> by_cases hbc : b = c
        · subst hab
          subst hbc
          rw [if_pos rfl] at h1b h2b ⊢
          exact ih bs cs h1b h2b
        · subst hab
          rw [if_pos rfl] at h1b
          rw [if_neg hbc] at h2b
          rw [if_neg hbc]
          exact h2b
        · subst hbc
          rw [if_neg hab] at h1b
          rw [if_pos rfl] at h2b
          rw [if_neg hab]
          exact h1b
        · rw [if_neg hab] at h1b
          rw [if_neg hbc] at h2b
          have hac : a < c := lt_trans (of_decide_eq_true h1b) (of_decide_eq_true h2b)
          rw [if_neg (ne_of_lt hac)]
          exact decide_eq_true hac

/-- `build_index` of `index.py` (the index construction itself; directory
creation, file copying and the printed report are I/O externals).  A document
is a pair of its file name (= document id) and its list of lines. -/
def build_index (env : Env) (files : List (String × List String)) : IdxL :=
  (sortByName files).foldl (fun inv f => file_index env f.1 f.2 inv) []

/-- Dict lookup returning `[]` for an absent key. -/
def lookupD (inv : IdxL) (t : String) : List Posting := (inv.lookup t).getD []

/-- The sentence chunks of a document: one entry per tokenized sentence,
carrying its emitted term list and its 0-based line number, in the order
`file_index` visits them. -/
def docChunks (env : Env) (content : List String) : List (List String × ℕ) :=
  content.enum.flatMap (fun nl =>
    (env.sentTok nl.2).map (fun cur => (tokenize_sentence env (preprocess_sentence_str cur), nl.1)))

/-- The inner loops of `file_index` as a fold over sentence chunks. -/
def chunkFold (id : String) (cs : List (List String × ℕ)) (acc : IdxL × ℕ) : IdxL × ℕ :=
  cs.foldl
    (fun acc2 c =>
      c.1.foldl (fun acc3 t => (dictAppend acc3.1 t ⟨id, acc3.2, c.2⟩, acc3.2 + 1)) acc2) acc

/-- The postings a run of terms on line `n` contributes for term `t2`,
when the position counter starts at `pos`. -/
def emitRun (id : String) (n : ℕ) : List String → ℕ → String → List Posting
  | [], _, _ => []
  | t :: ts, pos, t2 =>
    (if t = t2 then [⟨id, pos, n⟩] else []) ++ emitRun id n ts (pos + 1) t2

/-- The postings a chunk list contributes for term `t2`, the position
counter starting at `pos` and advancing once per emitted term. -/
def emitChunks (id : String) : List (List String × ℕ) → ℕ → String → List Posting
  | [], _, _ => []
  | (ts, n) :: cs, pos, t2 => emitRun id n ts pos t2 ++ emitChunks id cs (pos + ts.length) t2

/-- The flat `(term, line)` emission sequence of a chunk list. -/
def chunkTermLines (cs : List (List String × ℕ)) : List (String × ℕ) :=
  cs.flatMap (fun c => c.1.map (fun t => (t, c.2)))

/-- The flat `(term, line)` emission sequence of one document. -/
def docTermLines (env : Env) (content : List String) : List (String × ℕ) :=
  chunkTermLines (docChunks env content)

/-- Pair each emitted `(term, line)` with its posting, positions counted
from `pos`. -/
def traceFrom (id : String) : ℕ → List (String × ℕ) → List (String × Posting)
  | _, [] => []
  | pos, (t, n) :: tl => (t, ⟨id, pos, n⟩) :: traceFrom id (pos + 1) tl

/-- The full emission trace of a document: term and posting of every
emitted term instance, in emission order, positions counted from 0. -/
def docTraceAll (env : Env) (id : String) (content : List String) : List (String × Posting) :=
  traceFrom id 0 (docTermLines env content)

/-- The postings one document contributes to term `t` — the document's
occurrence sequence of `t` in emission order. -/
def docPost (env : Env) (id : String) (content : List String) (t : String) : List Posting :=
  emitChunks id (docChunks env content) 0 t

/-- Lookup in `dict(zip(keys, vals))`: on duplicate keys the last pair wins. -/
def pdLookup (pd : List (String × ℕ)) (t : String) : Option ℕ := pd.reverse.lookup t

/-- `sum(c[i+1] - c[i] - 1 for i in range(len(c) - 1))` after `c = sorted(c)`. -/
def spread (c : List ℕ) : ℤ :=
  let s := c.insertionSort (fun a b => a ≤ b)
  ((s.zip s.tail).map (fun ab => (ab.2 : ℤ) - (ab.1 : ℤ) - 1)).sum

/-- The ordered-pair count of `shortest_distance`: adjacent pairs of the
original `search_term` sequence whose two terms are both in the chosen
combination with strictly increasing positions. -/
def orderedPairs (st : List String) (pd : List (String × ℕ)) : ℕ :=
  ((st.zip st.tail).filter (fun t12 =>
    match pdLookup pd t12.1, pdLookup pd t12.2 with
    | some p1, some p2 => decide (p1 < p2)
    | _, _ => false)).length

/-- `itertools.product(*lists)` (rightmost factor varies fastest). -/
def pyProduct : List (List ℕ) → List (List ℕ)
  | [] => [[]]
  | l :: ls => l.flatMap (fun x => (pyProduct ls).map (fun c => x :: c))

/-- One step of the best-combination fold of `shortest_distance`:
replace the incumbent on strictly smaller spread, or on equal spread and
strictly more ordered pairs.  The accumulator is
`(best_distance, max_number, best_position)`, started at `(inf, -1, None)`. -/
def sdStep (st mw : List String) (best : WithTop ℤ × ℤ × Option (List (String × ℕ)))
    (c : List ℕ) : WithTop ℤ × ℤ × Option (List (String × ℕ)) :=
  let pd := mw.zip c
  let s := spread c
  let pn := orderedPairs st pd
  if (s : WithTop ℤ) < best.1 ∨ ((s : WithTop ℤ) = best.1 ∧ best.2.1 < (pn : ℤ)) then
    ((s : WithTop ℤ), (pn : ℤ), some pd)
  else best

/-- `match_word`: the query terms that actually hit the position dict. -/
def matchWords (st : List String) (position : List (String × List ℕ)) : List String :=
  st.filter (fun t => (position.lookup t).isSome)

/-- `match_list`: the occurrence-position list of each matched term. -/
def matchLists (st : List String) (position : List (String × List ℕ)) : List (List ℕ) :=
  (matchWords st position).map (fun t => (position.lookup t).getD [])

/-- `shortest_distance` of `search.py`.  Returns
`(avg_distance, max_number, best_position)`; `float("inf")` is `⊤`. -/
def shortest_distance (st : List String) (position : List (String × List ℕ)) :
    WithTop ℚ × ℤ × Option (List (String × ℕ)) :=
  let mw := matchWords st position
  let ml := matchLists st position
  if mw.isEmpty then (⊤, 0, some [])
  else
    let r := (pyProduct ml).foldl (sdStep st mw) (⊤, -1, none)
    (WithTop.map (fun d : ℤ => (d : ℚ) / ((max (mw.length - 1) 1 : ℕ) : ℚ)) r.1, r.2.1, r.2.2)

/-- Invariant of the best-combination fold of `shortest_distance`: after
the combinations `seen` have been processed, the accumulator is either
still the initial `(inf, -1, None)` (nothing seen) or realises the best
seen combination: minimal spread, and maximal ordered-pair count among
the minimal-spread ones. -/
def sdInv (st mw : List String) (seen : List (List ℕ))
    (acc : WithTop ℤ × ℤ × Option (List (String × ℕ))) : Prop :=
  (seen = [] ∧ acc = (⊤, -1, none)) ∨
  (∃ c ∈ seen,
    acc = ((spread c : WithTop ℤ), (orderedPairs st (mw.zip c) : ℤ), some (mw.zip c)) ∧
    ∀ c2 ∈ seen, spread c ≤ spread c2 ∧
      (spread c2 = spread c → orderedPairs st (mw.zip c2) ≤ orderedPairs st (mw.zip c)))

/-- The position fixed for each matched term when its occurrence list is
a singleton. -/
def fixedPositions (st : List String) (position : List (String × List ℕ)) : List ℕ :=
  (matchWords st position).map (fun t => ((position.lookup t).getD []).headD 0)

/-- Claim-side count (from the specification's words): the number of
adjacent pairs of the query list whose two terms both match and whose
fixed positions are already increasing. -/
def specAdjacentCount (st : List String) (position : List (String × List ℕ)) : ℕ :=
  (st.zip st.tail).countP (fun t12 =>
    match position.lookup t12.1, position.lookup t12.2 with
    | some l1, some l2 => decide (l1.headD 0 < l2.headD 0)
    | _, _ => false)

/-- The best match combination attached to a ranked entry (`None` only on
the unreachable empty-product path of `shortest_distance`). -/
abbrev Chosen := Option (List (String × ℕ))

/-- A ranked entry `(id, score, chosen)`. -/
abbrev RankedE := String × ℚ × Chosen

def ALPHA : ℚ := 1
def BETA : ℚ := 1
def GAMMA : ℚ := 1 / 10

/-- The per-document grouping `match[id][t] = [(pos, line), ...]`. -/
abbrev MatchT := List (String × List (String × List (ℕ × ℕ)))

/-- The grouping loop of `search`: for each query term present in the
index, append each of its postings to `match[id][t]`. -/
def buildMatch (inv : IdxL) (st : List String) : MatchT :=
  st.foldl
    (fun m t =>
      match inv.lookup t with
      | none => m
      | some ps =>
        ps.foldl (fun m2 p => dictUpd [] (fun inner => dictAppend inner t (p.pos, p.line)) m2 p.id) m)
    []

/-- `1 / (1 + avg_distance)`, with the Python convention `1/(1+inf) = 0`. -/
def invOnePlus (x : WithTop ℚ) : ℚ := x.recTopCoe 0 (fun a => 1 / (1 + a))

/-- The scoring of one matched document inside `search`:
coverage, proximity (zero/first-position shortcut for a single matched
term), ordered-pair bonus. -/
def scoreEntry (st : List String) (e : String × List (String × List (ℕ × ℕ))) : RankedE :=
  let matchTerm := e.2.map Prod.fst
  let coverage : ℚ := (matchTerm.length : ℚ) / (st.length : ℚ)
  if matchTerm.length = 1 then
    let t := matchTerm.headD ""
    let p := (((e.2.lookup t).getD []).headD (0, 0)).1
    (e.1, ALPHA * coverage + BETA * 0 + GAMMA * 0, some [(t, p)])
  else
    let position := e.2.map (fun te => (te.1, te.2.map Prod.fst))
    let r := shortest_distance st position
    (e.1, ALPHA * coverage + BETA * invOnePlus r.1 + GAMMA * (r.2.1 : ℚ), r.2.2)

/-- One step of the duplicate-removal dict of `search`: first score wins
the slot, a strictly higher score replaces it in place. -/
def uniqueStep (acc : List RankedE) (e : RankedE) : List RankedE :=
  match acc.lookup e.1 with
  | none => acc ++ [e]
  | some sc => if sc.1 < e.2.1 then acc.map (fun x => if x.1 = e.1 then e else x) else acc

/-- The duplicate-removal pass (`unique = {}` loop) of `search`. -/
def uniqueFold (tr : List RankedE) : List RankedE := tr.foldl uniqueStep []

/-- Round half to even (Python `round`) on an exact rational. -/
def roundEven (q : ℚ) : ℤ :=
  let f := ⌊q⌋
  let r := q - (f : ℚ)
  if r < 1 / 2 then f
  else if 1 / 2 < r then f + 1
  else if f % 2 = 0 then f else f + 1

/-- `round(x, 10)`: round to 10 decimal digits. -/
def round10 (q : ℚ) : ℚ := ((roundEven (q * 10 ^ 10) : ℤ) : ℚ) / 10 ^ 10

/-- The numeric value of a digit run. -/
def digitsVal (l : List Char) : ℕ := l.foldl (fun n c => n * 10 + (c.toNat - 48)) 0

/-- Python `str.strip()` on a character list. -/
def stripWsL (l : List Char) : List Char :=
  ((l.dropWhile Char.isWhitespace).reverse.dropWhile Char.isWhitespace).reverse

/-- Python `int(s)` (ASCII fragment: optional surrounding whitespace,
optional sign, a non-empty digit run; `None` models `ValueError`). -/
def pyInt? (s : String) : Option ℤ :=
  let cs := stripWsL s.toList
  let sgnds : ℤ × List Char :=
    match cs with
    | c :: rest => if c = '-' then (-1, rest) else if c = '+' then (1, rest) else (1, cs)
    | [] => (1, [])
  if !sgnds.2.isEmpty && sgnds.2.all Char.isDigit then
    some (sgnds.1 * digitsVal sgnds.2)
  else none

/-- First sort-key component of `ranked.sort`, negated score rounded to
10 decimals (kept un-negated here, compared descending in `rankLe`). -/
def keyScore (e : RankedE) : ℚ := round10 e.2.1

/-- Second sort-key component, `int(x[0])` (guarded in `search`;
the default value is never reached there). -/
def keyId (e : RankedE) : ℤ := (pyInt? e.1).getD 0

/-- The sort order of `ranked.sort(key=lambda x: (-round(x[1], 10), int(x[0])))`:
descending rounded score, ties by ascending integer value of the id. -/
def rankLe (a b : RankedE) : Prop :=
  keyScore b < keyScore a ∨ (keyScore a = keyScore b ∧ keyId a ≤ keyId b)

instance : DecidableRel rankLe := fun a b => by unfold rankLe; exact inferInstance

instance : IsTotal RankedE rankLe := by
  constructor
  intro a b
  rcases lt_trichotomy (keyScore a) (keyScore b) with h | h | h
  · exact Or.inr (Or.inl h)
  · rcases le_total (keyId a) (keyId b) with h2 | h2
    · exact Or.inl (Or.inr ⟨h, h2⟩)
    · exact Or.inr (Or.inr ⟨h.symm, h2⟩)
  · exact Or.inl (Or.inl h)

instance : IsTrans RankedE rankLe := by
  constructor
  intro a b c hab hbc
  rcases hab with h1 | ⟨h1, h1i⟩
  · rcases hbc with h2 | ⟨h2, _⟩
    · exact Or.inl (h2.trans h1)
    · exact Or.inl (h2 ▸ h1)
  · rcases hbc with h2 | ⟨h2, h2i⟩
    · exact Or.inl (h1 ▸ h2)
    · exact Or.inr ⟨h1.trans h2, h1i.trans h2i⟩

/-- Python `line.endswith("\n")`. -/
def endsNL (s : String) : Bool := s.toList.getLast? == some '\n'

/-- Append a newline when the source line lacks one
(`if not line.endswith("\n"): line += "\n"`). -/
def ensureNL (s : String) : String := if endsNL s then s else s ++ "\n"

/-- Python `sorted(set(l))`: the distinct values in ascending order. -/
def sortedDedup (l : List ℕ) : List ℕ := (dedupFirst l).insertionSort (fun a b => a ≤ b)

/-- `print_match` of `search.py`: collect the line numbers of every posting of
a chosen `(term, position)` pair for this document, and emit the corresponding
existing lines in ascending order, each newline-terminated.  `docFiles`
models the document-copy area of the index directory; a missing file
(`None`) yields no output. -/
def print_match (inv : IdxL) (docFiles : String → Option (List String)) (id : String)
    (chosen : List (String × ℕ)) : List String :=
  match docFiles id with
  | none => []
  | some lines =>
    let lineIds := chosen.flatMap (fun tp =>
      ((inv.lookup tp.1).getD []).filterMap (fun p =>
        if p.id = id ∧ p.pos = tp.2 then some p.line else none))
    (sortedDedup lineIds).filterMap (fun i =>
      if i < lines.length then some (ensureNL (lines.getD i "")) else none)

/-- The two exceptional exits of `search`: `int(x[0])` raising `ValueError`
inside the sort-key computation, and the duplicate-id `assert`. -/
inductive SearchErr where
  | intParse
  | dupAssert
deriving DecidableEq, Repr

deriving instance DecidableEq for Except

/-- The output loop of `search`: assert each id unseen, then print the id
(and, with the preview marker, the matched lines). -/
def outLoop (inv : IdxL) (docFiles : String → Option (List String)) (ml : Bool) :
    List RankedE → List String → List String → Except SearchErr (List String)
  | [], _, out => .ok out
  | e :: rest, printed, out =>
    if e.1 ∈ printed then .error .dupAssert
    else
      outLoop inv docFiles ml rest (e.1 :: printed)
        (out ++ (if ml then ("> " ++ e.1) :: print_match inv docFiles e.1 (e.2.2.getD []) else [e.1]))

/-- `origin_query.startswith(">")`: the preview-marker test. -/
def isMarked (s : String) : Bool :=
  match s.toList with
  | c :: _ => c == '>'
  | [] => false

/-- `origin_query[1:].strip() if match_line else origin_query.strip()`. -/
def queryOf (s : String) : String :=
  if isMarked s then String.mk (stripWsL (s.toList.drop 1)) else String.mk (stripWsL s.toList)

/-- `search` of `search.py`.  Returns the ranked result list together with
the lines printed to stdout, or the raised exception.  Python's sort
computes `int(id)` for every element before comparing, so a single
unparsable id fails the whole query. -/
def search (env : Env) (inv : IdxL) (docFiles : String → Option (List String))
    (origin_query : String) : Except SearchErr (List RankedE × List String) :=
  let match_line : Bool := isMarked origin_query
  let st := preprocess_sentence env (queryOf origin_query)
  if st.isEmpty then .ok ([], [])
  else
    let temp_rank := (buildMatch inv st).map (scoreEntry st)
    let uq := uniqueFold temp_rank
    if uq.all (fun e => (pyInt? e.1).isSome) then
      let ranked := uq.insertionSort rankLe
      match outLoop inv docFiles match_line ranked [] [] with
      | .ok out => .ok (ranked, out)
      | .error err => .error err
    else .error .intParse

/-- A concrete environment: identity lemmatizer, whitespace word
tokenizer, whole-line sentence tokenizer, identity set order. -/
def env0 : Env :=
  { lemDefault := id, lemNoun := id, lemVerb := id,
    wordTok := fun s => (splitOnCharL ' ' s.toList).map String.mk,
    sentTok := fun s => [s], setOrder := id }

/-- A document store with no files. -/
def df0 : String → Option (List String) := fun _ => none

/-- A concrete index: term `x` occurs once in document `9` and once in
document `10` (both at position 0, line 0). -/
def inv1 : IdxL := [("x", [⟨"9", 0, 0⟩, ⟨"10", 0, 0⟩])]

/-- The score both documents of `inv1` receive for the query `x`:
full coverage of the single query term, no proximity or order bonus. -/
def cexScore : ℚ := ALPHA * (((1 : ℕ) : ℚ) / ((1 : ℕ) : ℚ)) + BETA * 0 + GAMMA * 0

/-- The ranked entry of document `9` for the query `x` on `inv1`. -/
def e9 : RankedE := ("9", cexScore, some [("x", 0)])

/-- The ranked entry of document `10` for the query `x` on `inv1`. -/
def e10 : RankedE := ("10", cexScore, some [("x", 0)])

/-- A document store holding one file, `9`, with a single line without a
trailing newline. -/
def df1 : String → Option (List String) := fun id => if id = "9" then some ["hello"] else none

/-- An environment whose lemmatizer sends every word to root `leaf` by
default and as a noun, and to `leave` as a verb (so the root set of any
word has two elements); the runtime iterates the root set in first-seen
order. -/
def envLeaf : Env :=
  { lemDefault := fun _ => "leaf", lemNoun := fun _ => "leaf", lemVerb := fun _ => "leave",
    wordTok := fun s => (splitOnCharL ' ' s.toList).map String.mk,
    sentTok := fun s => [s], setOrder := id }

/-- The same environment under a runtime that iterates the root set in
the reverse order (both orders enumerate the same unordered set). -/
def envLeafRev : Env :=
  { envLeaf with setOrder := List.reverse }

/-- A two-document corpus: `d1` contains `y x x`, `d2` contains `x y`. -/
def files6 : List (String × List String) := [("d2", ["x y"]), ("d1", ["y x x"])]

/-- The ranking order claimed by the specification with document ids
compared as strings: descending rounded score, ties by ascending
document id (lexicographic on code points, Python's string order). -/
def specRankOrderStringId (r : List RankedE) : Prop :=
  r.Pairwise (fun a b =>
    round10 b.2.1 < round10 a.2.1 ∨
    (round10 a.2.1 = round10 b.2.1 ∧ List.Lex (· < ·) a.1.toList b.1.toList))

/-! ## Lemmas about first-occurrence deduplication -/

theorem mem_dedupFirstAux {α : Type} [DecidableEq α] (seen l : List α) (t : α) :
    t ∈ dedupFirstAux seen l ↔ t ∈ l ∧ t ∉ seen := by
  induction l generalizing seen with
  | nil => simp [dedupFirstAux]
  | cons a l ih =>
    simp only [dedupFirstAux]
    by_cases h : a ∈ seen
    · simp only [if_pos h, ih, List.mem_cons]
      constructor
      · rintro ⟨h1, h2⟩
        exact ⟨Or.inr h1, h2⟩
      · rintro ⟨h1 | h1, h2⟩
        · exact absurd (h1 ▸ h) h2
        · exact ⟨h1, h2⟩
    · simp only [if_neg h, List.mem_cons, ih]
      constructor
      · rintro (rfl | ⟨h1, h2⟩)
        · exact ⟨Or.inl rfl, h⟩
        · exact ⟨Or.inr h1, fun hs => h2 (Or.inr hs)⟩
      · rintro ⟨h1 | h1, h2⟩
        · exact Or.inl h1
        · by_cases ht : t = a
          · exact Or.inl ht
          · exact Or.inr ⟨h1, by simp [ht, h2]⟩

theorem nodup_dedupFirstAux {α : Type} [DecidableEq α] (seen l : List α) :
    (dedupFirstAux seen l).Nodup := by
  induction l generalizing seen with
  | nil => simp [dedupFirstAux]
  | cons a l ih =>
    simp only [dedupFirstAux]
    split
    · exact ih seen
    · refine List.nodup_cons.mpr ⟨?_, ih (a :: seen)⟩
      intro hmem
      exact ((mem_dedupFirstAux (a :: seen) l a).mp hmem).2 (List.mem_cons_self a seen)

theorem sorted_indexOf_dedupFirstAux {α : Type} [DecidableEq α] (seen l : List α) :
    ((dedupFirstAux seen l).map (fun t => l.indexOf t)).Sorted (· < ·) := by
  induction l generalizing seen with
  | nil => simp [dedupFirstAux, List.Sorted]
  | cons a l ih =>
    simp only [dedupFirstAux]
    by_cases h : a ∈ seen
    · rw [if_pos h]
      have hcong : ∀ t ∈ dedupFirstAux seen l,
          (a :: l).indexOf t = l.indexOf t + 1 := by
        intro t ht
        have hta : t ≠ a := by
          intro hta
          exact ((mem_dedupFirstAux seen l t).mp ht).2 (hta ▸ h)
        exact List.indexOf_cons_ne l (Ne.symm hta)
      rw [List.map_congr_left hcong]
      have := ih seen
      simp only [List.Sorted, List.pairwise_map] at this ⊢
      exact this.imp (fun hab => Nat.succ_lt_succ hab)
    · rw [if_neg h]
      simp only [List.map_cons, List.indexOf_cons_self]
      rw [List.sorted_cons]
      have hcong : ∀ t ∈ dedupFirstAux (a :: seen) l,
          (a :: l).indexOf t = l.indexOf t + 1 := by
        intro t ht
        have hta : t ≠ a := by
          intro hta
          exact ((mem_dedupFirstAux (a :: seen) l t).mp ht).2 (hta ▸ List.mem_cons_self a seen)
        exact List.indexOf_cons_ne l (Ne.symm hta)
      constructor
      · intro b hb
        rw [List.mem_map] at hb
        obtain ⟨t, ht, rfl⟩ := hb
        rw [hcong t ht]
        exact Nat.succ_pos _
      · rw [List.map_congr_left hcong]
        have := ih (a :: seen)
        simp only [List.Sorted, List.pairwise_map] at this ⊢
        exact this.imp (fun hab => Nat.succ_lt_succ hab)

/-- **C9.** For every query text, the normalized query term list contains
no duplicate terms: every emitted term appears exactly once, the surviving
occurrences standing in the order of their first emission (their
first-occurrence indices in the raw emission sequence are strictly
increasing along the list). -/
theorem C9_query_terms_dedup_first (env : Env) (s : String) :
    (preprocess_sentence env s).Nodup ∧
    (∀ t, t ∈ preprocess_sentence env s ↔ t ∈ rawQueryTerms env s) ∧
    ((preprocess_sentence env s).map
      (fun t => (rawQueryTerms env s).indexOf t)).Sorted (· < ·) := by
  refine ⟨nodup_dedupFirstAux [] _, fun t => ?_, sorted_indexOf_dedupFirstAux [] _⟩
  rw [preprocess_sentence, dedupFirst, mem_dedupFirstAux]
  simp

/-! ## Lemmas about association-list lookup -/

theorem mem_of_lookup_eq_some {β : Type} {l : List (String × β)} {k : String} {v : β}
    (h : l.lookup k = some v) : (k, v) ∈ l := by
  induction l with
  | nil => simp [List.lookup] at h
  | cons p rest ih =>
    rw [List.lookup] at h
    by_cases hk : k = p.1
    · rw [show (k == p.1) = true from beq_iff_eq.mpr hk] at h
      simp only [Option.some.injEq] at h
      subst h hk
      exact List.mem_cons_self _ _
    · rw [show (k == p.1) = false from beq_eq_false_iff_ne.mpr hk] at h
      exact List.mem_cons_of_mem _ (ih h)

theorem lookup_graph {β : Type} (g : String → β) {pd : List (String × β)}
    (hg : ∀ p ∈ pd, p.2 = g p.1) (t : String) :
    pd.lookup t = if t ∈ pd.map Prod.fst then some (g t) else none := by
  induction pd with
  | nil => simp [List.lookup]
  | cons p rest ih =>
    rw [List.lookup]
    by_cases hk : t = p.1
    · rw [show (t == p.1) = true from beq_iff_eq.mpr hk]
      have : p.2 = g p.1 := hg p (List.mem_cons_self _ _)
      simp [hk, this]
    · rw [show (t == p.1) = false from beq_eq_false_iff_ne.mpr hk]
      rw [ih (fun q hq => hg q (List.mem_cons_of_mem _ hq))]
      by_cases hm : t ∈ rest.map Prod.fst <;> simp [hm, List.mem_cons, hk]

theorem snd_eq_of_mem_zip_map {α β : Type} (g : α → β) :
    ∀ (l : List α) (p : α × β), p ∈ l.zip (l.map g) → p.2 = g p.1 := by
  intro l
  induction l with
  | nil => intro p h; simp at h
  | cons a l ih =>
    intro p h
    rw [List.map_cons, List.zip_cons_cons, List.mem_cons] at h
    rcases h with rfl | h
    · rfl
    · exact ih p h

theorem pdLookup_zip_map :
    ∀ (mw : List String) (g : String → ℕ) (t : String),
    pdLookup (mw.zip (mw.map g)) t = if t ∈ mw then some (g t) else none := by
  intro mw g t
  rw [pdLookup]
  rw [lookup_graph g (fun p hp => snd_eq_of_mem_zip_map g mw p (List.mem_reverse.mp hp))]
  have hlen : mw.length ≤ (mw.map g).length := by simp
  have : (mw.zip (mw.map g)).reverse.map Prod.fst = mw.reverse := by
    rw [List.map_reverse, List.map_fst_zip _ _ hlen]
  rw [this]
  simp

/-! ## Lemmas about the combination enumeration of `shortest_distance` -/

theorem mem_pyProduct (ls : List (List ℕ)) (c : List ℕ) :
    c ∈ pyProduct ls ↔ List.Forall₂ (fun x l => x ∈ l) c ls := by
  induction ls generalizing c with
  | nil =>
    simp only [pyProduct, List.mem_singleton]
    constructor
    · rintro rfl; exact List.Forall₂.nil
    · intro h; cases h; rfl
  | cons l ls ih =>
    simp only [pyProduct, List.mem_flatMap, List.mem_map]
    constructor
    · rintro ⟨x, hx, c2, hc2, rfl⟩
      exact List.Forall₂.cons hx (ih c2 |>.mp hc2)
    · intro h
      cases h with
      | cons hx hc2 => exact ⟨_, hx, _, (ih _).mpr hc2, rfl⟩

theorem pyProduct_exists_mem (ls : List (List ℕ)) (h : ∀ l ∈ ls, l ≠ []) :
    ∃ c, c ∈ pyProduct ls := by
  induction ls with
  | nil => exact ⟨[], by simp [pyProduct]⟩
  | cons l ls ih =>
    obtain ⟨c, hc⟩ := ih (fun l2 hl2 => h l2 (List.mem_cons_of_mem _ hl2))
    have hl : l ≠ [] := h l (List.mem_cons_self _ _)
    obtain ⟨x, hx⟩ := List.exists_mem_of_ne_nil l hl
    refine ⟨x :: c, ?_⟩
    simp only [pyProduct, List.mem_flatMap, List.mem_map]
    exact ⟨x, hx, c, hc, rfl⟩

theorem pyProduct_singletons (l : List ℕ) :
    pyProduct (l.map (fun x => [x])) = [l] := by
  induction l with
  | nil => rfl
  | cons a l ih => simp [pyProduct, ih]

theorem sdInv_step (st mw : List String) (seen : List (List ℕ))
    (acc : WithTop ℤ × ℤ × Option (List (String × ℕ))) (c : List ℕ)
    (h : sdInv st mw seen acc) : sdInv st mw (seen ++ [c]) (sdStep st mw acc c) := by
  rcases h with ⟨rfl, rfl⟩ | ⟨c0, hc0, hacc, hbest⟩
  · right
    refine ⟨c, by simp, ?_, ?_⟩
    · rw [sdStep]
      simp only
      rw [if_pos (Or.inl (WithTop.coe_lt_top _))]
    · intro c2 hc2
      simp only [List.nil_append, List.mem_singleton] at hc2
      subst hc2
      exact ⟨le_refl _, fun _ => le_refl _⟩
  · subst hacc
    rw [sdStep]
    simp only
    by_cases hcond : (spread c : WithTop ℤ) < (spread c0 : WithTop ℤ) ∨
        ((spread c : WithTop ℤ) = (spread c0 : WithTop ℤ) ∧
          (orderedPairs st (mw.zip c0) : ℤ) < (orderedPairs st (mw.zip c) : ℤ))
    · rw [if_pos hcond]
      right
      refine ⟨c, by simp, rfl, ?_⟩
      intro c2 hc2
      rw [List.mem_append, List.mem_singleton] at hc2
      have hlt : spread c < spread c0 ∨
          (spread c = spread c0 ∧ orderedPairs st (mw.zip c0) < orderedPairs st (mw.zip c)) := by
        rcases hcond with h1 | ⟨h1, h2⟩
        · exact Or.inl (WithTop.coe_lt_coe.mp h1)
        · exact Or.inr ⟨WithTop.coe_inj.mp h1, by exact_mod_cast h2⟩
      rcases hc2 with hc2 | rfl
      · have hle := (hbest c2 hc2).1
        rcases hlt with h1 | ⟨h1, h2⟩
        · refine ⟨le_of_lt (lt_of_lt_of_le h1 hle), fun heq => absurd (heq.trans_lt h1) (not_lt.mpr hle)⟩
        · refine ⟨h1 ▸ hle, fun heq => ?_⟩
          have := (hbest c2 hc2).2 (heq.trans h1)
          exact le_of_lt (lt_of_le_of_lt this h2)
      · exact ⟨le_refl _, fun _ => le_refl _⟩
    · rw [if_neg hcond]
      push_neg at hcond
      obtain ⟨hns, hnp⟩ := hcond
      right
      refine ⟨c0, List.mem_append_left _ hc0, rfl, ?_⟩
      intro c2 hc2
      rw [List.mem_append, List.mem_singleton] at hc2
      rcases hc2 with hc2 | rfl
      · exact hbest c2 hc2
      · refine ⟨WithTop.coe_le_coe.mp hns, fun heq => ?_⟩
        exact_mod_cast hnp (WithTop.coe_inj.mpr heq)

theorem sdInv_foldl (st mw : List String) :
    ∀ (l seen : List (List ℕ)) (acc : WithTop ℤ × ℤ × Option (List (String × ℕ))),
    sdInv st mw seen acc → sdInv st mw (seen ++ l) (l.foldl (sdStep st mw) acc) := by
  intro l
  induction l with
  | nil => intro seen acc h; simpa using h
  | cons c l ih =>
    intro seen acc h
    rw [List.foldl_cons]
    have := ih (seen ++ [c]) (sdStep st mw acc c) (sdInv_step st mw seen acc c h)
    simpa [List.append_assoc] using this

theorem matchLists_ne_nil (st : List String) (position : List (String × List ℕ))
    (hvals : ∀ pl ∈ position, pl.2 ≠ []) :
    ∀ l ∈ matchLists st position, l ≠ [] := by
  intro l hl
  rw [matchLists, List.mem_map] at hl
  obtain ⟨t, ht, rfl⟩ := hl
  rw [matchWords, List.mem_filter] at ht
  obtain ⟨-, hsome⟩ := ht
  obtain ⟨v, hv⟩ := Option.isSome_iff_exists.mp hsome
  rw [hv]
  have := hvals (t, v) (mem_of_lookup_eq_some hv)
  simpa using this

/-- **C4.** On a document where at least two query terms match, the
shortest-window search enumerates exactly the full cross-product of one
occurrence position per matched term, and returns the combination of
minimum spread — ties broken by maximum ordered-pair count over the
original query order — together with
`avgDistance = bestSpread / max(matchedTermCount - 1, 1)`. -/
theorem C4_shortest_window_cross_product (st : List String)
    (position : List (String × List ℕ))
    (hvals : ∀ pl ∈ position, pl.2 ≠ [])
    (htwo : 2 ≤ (matchWords st position).length) :
    (∀ c, c ∈ pyProduct (matchLists st position) ↔
      List.Forall₂ (fun x l => x ∈ l) c (matchLists st position)) ∧
    ∃ c0 ∈ pyProduct (matchLists st position),
      shortest_distance st position =
        ((((spread c0 : ℚ) / ((max ((matchWords st position).length - 1) 1 : ℕ) : ℚ)) : WithTop ℚ),
          (orderedPairs st ((matchWords st position).zip c0) : ℤ),
          some ((matchWords st position).zip c0)) ∧
      (∀ c ∈ pyProduct (matchLists st position), spread c0 ≤ spread c) ∧
      (∀ c ∈ pyProduct (matchLists st position), spread c = spread c0 →
        orderedPairs st ((matchWords st position).zip c) ≤
          orderedPairs st ((matchWords st position).zip c0)) := by
  refine ⟨fun c => mem_pyProduct _ c, ?_⟩
  obtain ⟨cw, hcw⟩ := pyProduct_exists_mem _ (matchLists_ne_nil st position hvals)
  have hne : pyProduct (matchLists st position) ≠ [] := by
    intro h
    rw [h] at hcw
    exact List.not_mem_nil cw hcw
  have hinv := sdInv_foldl st (matchWords st position)
    (pyProduct (matchLists st position)) [] (⊤, -1, none) (Or.inl ⟨rfl, rfl⟩)
  rw [List.nil_append] at hinv
  rcases hinv with ⟨habs, -⟩ | ⟨c0, hc0, hacc, hbest⟩
  · exact absurd habs hne
  refine ⟨c0, hc0, ?_, fun c hc => (hbest c hc).1, fun c hc => (hbest c hc).2⟩
  have hmw_ne : ¬ (matchWords st position).isEmpty = true := by
    intro h
    rw [List.isEmpty_iff] at h
    rw [h] at htwo
    simp at htwo
  rw [shortest_distance]
  simp only [if_neg hmw_ne]
  rw [hacc, WithTop.map_coe]

/-- Witness for C4 at `Q = [a, b]`, `a` at positions 0 and 3, `b` at 1:
both hypotheses hold and the theorem's conclusion follows. -/
theorem C4_shortest_window_cross_product_witness :
    2 ≤ (matchWords ["a", "b"] [("a", [0, 3]), ("b", [1])]).length ∧
    ((∀ c, c ∈ pyProduct (matchLists ["a", "b"] [("a", [0, 3]), ("b", [1])]) ↔
      List.Forall₂ (fun x l => x ∈ l) c (matchLists ["a", "b"] [("a", [0, 3]), ("b", [1])])) ∧
    ∃ c0 ∈ pyProduct (matchLists ["a", "b"] [("a", [0, 3]), ("b", [1])]),
      shortest_distance ["a", "b"] [("a", [0, 3]), ("b", [1])] =
        ((((spread c0 : ℚ) /
            ((max ((matchWords ["a", "b"] [("a", [0, 3]), ("b", [1])]).length - 1) 1 : ℕ) : ℚ)) :
              WithTop ℚ),
          (orderedPairs ["a", "b"] ((matchWords ["a", "b"] [("a", [0, 3]), ("b", [1])]).zip c0) : ℤ),
          some ((matchWords ["a", "b"] [("a", [0, 3]), ("b", [1])]).zip c0)) ∧
      (∀ c ∈ pyProduct (matchLists ["a", "b"] [("a", [0, 3]), ("b", [1])]), spread c0 ≤ spread c) ∧
      (∀ c ∈ pyProduct (matchLists ["a", "b"] [("a", [0, 3]), ("b", [1])]),
        spread c = spread c0 →
        orderedPairs ["a", "b"] ((matchWords ["a", "b"] [("a", [0, 3]), ("b", [1])]).zip c) ≤
          orderedPairs ["a", "b"] ((matchWords ["a", "b"] [("a", [0, 3]), ("b", [1])]).zip c0))) :=
  ⟨by decide,
    C4_shortest_window_cross_product ["a", "b"] [("a", [0, 3]), ("b", [1])]
      (by decide) (by decide)⟩

/-- **C2, counterexample.**  With `Q = [a, b, c]` fixed at positions 0, 5
and 10 (one occurrence each), the spread of the fixed positions is 8 but
`shortest_distance` returns `avgDistance = 4 = 8 / (3 - 1)`: the claim
that `avgDistance` equals the spread is false. -/
theorem C2_spread_counterexample :
    (shortest_distance ["a", "b", "c"] [("a", [0]), ("b", [5]), ("c", [10])]).1 =
      ((4 : ℚ) : WithTop ℚ) ∧
    spread (fixedPositions ["a", "b", "c"] [("a", [0]), ("b", [5]), ("c", [10])]) = 8 ∧
    ¬ (shortest_distance ["a", "b", "c"] [("a", [0]), ("b", [5]), ("c", [10])]).1 =
      ((spread (fixedPositions ["a", "b", "c"] [("a", [0]), ("b", [5]), ("c", [10])]) : ℚ) :
        WithTop ℚ) := by
  have hspread : spread (fixedPositions ["a", "b", "c"] [("a", [0]), ("b", [5]), ("c", [10])])
      = 8 := by decide
  have hfold : (pyProduct (matchLists ["a", "b", "c"] [("a", [0]), ("b", [5]), ("c", [10])])).foldl
      (sdStep ["a", "b", "c"] (matchWords ["a", "b", "c"] [("a", [0]), ("b", [5]), ("c", [10])]))
      (⊤, -1, none) =
      (((8 : ℤ) : WithTop ℤ), (2 : ℤ), some [("a", 0), ("b", 5), ("c", 10)]) := by decide
  have hlen : (matchWords ["a", "b", "c"] [("a", [0]), ("b", [5]), ("c", [10])]).length = 3 := by
    decide
  have h1 : (shortest_distance ["a", "b", "c"] [("a", [0]), ("b", [5]), ("c", [10])]).1 =
      ((4 : ℚ) : WithTop ℚ) := by
    rw [shortest_distance]
    simp only [if_neg (by decide :
      ¬ (matchWords ["a", "b", "c"] [("a", [0]), ("b", [5]), ("c", [10])]).isEmpty = true)]
    rw [hfold, WithTop.map_coe, WithTop.coe_inj, hlen]
    norm_num
  refine ⟨h1, hspread, ?_⟩
  rw [h1, hspread]
  intro h
  rw [WithTop.coe_inj] at h
  norm_num at h

/-- **C2, amended.**  On a document where every matched query term has
exactly one occurrence position, `shortest_distance` returns the only
combination (the fixed positions): `avgDistance` is the spread of those
positions **divided by `max(matchedTermCount - 1, 1)`**, and the
ordered-pair count is the number of adjacent pairs of the query order
whose two terms both match with their fixed positions increasing. -/
theorem C2_single_occurrence_window (st : List String)
    (position : List (String × List ℕ))
    (hsingle : ∀ pl ∈ position, pl.2.length = 1)
    (hmw : matchWords st position ≠ []) :
    shortest_distance st position =
      ((((spread (fixedPositions st position) : ℚ) /
          ((max ((matchWords st position).length - 1) 1 : ℕ) : ℚ)) : WithTop ℚ),
        (orderedPairs st ((matchWords st position).zip (fixedPositions st position)) : ℤ),
        some ((matchWords st position).zip (fixedPositions st position))) ∧
    orderedPairs st ((matchWords st position).zip (fixedPositions st position)) =
      specAdjacentCount st position := by
  have hml : matchLists st position = (fixedPositions st position).map (fun x => [x]) := by
    rw [matchLists, fixedPositions, List.map_map]
    apply List.map_congr_left
    intro t ht
    rw [matchWords, List.mem_filter] at ht
    obtain ⟨ht1, hsome⟩ := ht
    obtain ⟨v, hv⟩ := Option.isSome_iff_exists.mp hsome
    obtain ⟨a, rfl⟩ := List.length_eq_one.mp (hsingle (t, v) (mem_of_lookup_eq_some hv))
    simp [hv, Function.comp]
  have hmw_iff : ∀ t, t ∈ st →
      (t ∈ matchWords st position ↔ (position.lookup t).isSome = true) := by
    intro t ht
    rw [matchWords, List.mem_filter]
    simp [ht]
  constructor
  · have hkempty : ¬ (matchWords st position).isEmpty = true := by
      intro h
      exact hmw (List.isEmpty_iff.mp h)
    rw [shortest_distance]
    simp only [if_neg hkempty]
    rw [hml, pyProduct_singletons, List.foldl_cons, List.foldl_nil, sdStep]
    simp only
    rw [if_pos (Or.inl (WithTop.coe_lt_top (spread (fixedPositions st position))))]
    rw [WithTop.map_coe]
  · rw [orderedPairs, specAdjacentCount, List.countP_eq_length_filter]
    congr 1
    apply List.filter_congr
    intro t12 hmem
    obtain ⟨ht1, ht2'⟩ := List.of_mem_zip hmem
    have ht2 : t12.2 ∈ st := List.tail_subset st ht2'
    have hpd : ∀ t, t ∈ st →
        pdLookup ((matchWords st position).zip (fixedPositions st position)) t =
          (position.lookup t).map (fun l => l.headD 0) := by
      intro t ht
      rw [show fixedPositions st position =
          (matchWords st position).map (fun t => ((position.lookup t).getD []).headD 0) from rfl]
      rw [pdLookup_zip_map (matchWords st position)
        (fun t => ((position.lookup t).getD []).headD 0) t]
      by_cases hs : (position.lookup t).isSome = true
      · obtain ⟨v, hv⟩ := Option.isSome_iff_exists.mp hs
        rw [if_pos ((hmw_iff t ht).mpr hs), hv]
        simp
      · rw [if_neg (fun hm => hs ((hmw_iff t ht).mp hm))]
        rw [Option.not_isSome_iff_eq_none.mp hs]
        simp
    rw [hpd t12.1 ht1, hpd t12.2 ht2]
    rcases position.lookup t12.1 with _ | l1 <;> rcases position.lookup t12.2 with _ | l2 <;> simp

/-- Witness for the amended C2 at `Q = [a, b]`, `a` fixed at 2 and `b`
at 7: the matched-word list is non-empty and the conclusion follows. -/
theorem C2_single_occurrence_window_witness :
    matchWords ["a", "b"] [("a", [2]), ("b", [7])] ≠ [] ∧
    (shortest_distance ["a", "b"] [("a", [2]), ("b", [7])] =
      ((((spread (fixedPositions ["a", "b"] [("a", [2]), ("b", [7])]) : ℚ) /
          ((max ((matchWords ["a", "b"] [("a", [2]), ("b", [7])]).length - 1) 1 : ℕ) : ℚ)) :
            WithTop ℚ),
        (orderedPairs ["a", "b"]
          ((matchWords ["a", "b"] [("a", [2]), ("b", [7])]).zip
            (fixedPositions ["a", "b"] [("a", [2]), ("b", [7])])) : ℤ),
        some ((matchWords ["a", "b"] [("a", [2]), ("b", [7])]).zip
          (fixedPositions ["a", "b"] [("a", [2]), ("b", [7])]))) ∧
    orderedPairs ["a", "b"]
        ((matchWords ["a", "b"] [("a", [2]), ("b", [7])]).zip
          (fixedPositions ["a", "b"] [("a", [2]), ("b", [7])])) =
      specAdjacentCount ["a", "b"] [("a", [2]), ("b", [7])]) :=
  ⟨by decide,
    C2_single_occurrence_window ["a", "b"] [("a", [2]), ("b", [7])] (by decide) (by decide)⟩

/-- **C3 (code bug).**  The root-expansion order is *not* deterministic
across runs: `find_root` iterates an unordered Python set, so its order
depends on the per-process hash seed.  `envLeaf` and `envLeafRev` differ
only in the realised iteration order of that set — the reversed order
enumerates the same elements, as the permutation conjunct shows — yet
they emit the roots of `leaves` in different orders and build different
posting lists for the same corpus. -/
theorem C3_set_iteration_order_changes_postings :
    (dedupFirst ["leaf", "leaf", "leave"]).reverse.Perm
      (dedupFirst ["leaf", "leaf", "leave"]) ∧
    find_root envLeaf "leaves" ≠ find_root envLeafRev "leaves" ∧
    lookupD (build_index envLeaf [("d", ["leaves"])]) "leaf" ≠
      lookupD (build_index envLeafRev [("d", ["leaves"])]) "leaf" :=
  ⟨by decide, by decide, by decide⟩

/-! ## Characterisation of the index construction -/

theorem lookup_dictAppend {β : Type} (l : List (String × List β)) (k : String) (v : β)
    (k2 : String) :
    (dictAppend l k v).lookup k2 =
      if k2 = k then some (((l.lookup k).getD []) ++ [v]) else l.lookup k2 := by
  induction l with
  | nil =>
    by_cases h : k2 = k
    · subst h
      simp [dictAppend, List.lookup]
    · simp [dictAppend, List.lookup, h, beq_eq_false_iff_ne.mpr h]
  | cons p rest ih =>
    obtain ⟨k0, vs⟩ := p
    by_cases hk : k0 = k
    · subst hk
      by_cases h2 : k2 = k0
      · subst h2
        simp [dictAppend, List.lookup]
      · simp [dictAppend, List.lookup, h2, beq_eq_false_iff_ne.mpr h2]
    · have hk2 : ¬ k = k0 := fun h => hk h.symm
      by_cases h2 : k2 = k0
      · have hne : ¬ k2 = k := fun h => hk (h2.symm.trans h)
        simp [dictAppend, List.lookup, hk, h2, hne, beq_iff_eq.mpr h2,
          beq_eq_false_iff_ne.mpr hk2, beq_eq_false_iff_ne.mpr hne]
      · simp only [dictAppend, if_neg hk]
        simp only [List.lookup, beq_eq_false_iff_ne.mpr h2, beq_eq_false_iff_ne.mpr hk2]
        rw [ih]

theorem foldl_congr_fun {α δ : Type} {f g : δ → α → δ} (l : List α)
    (h : ∀ acc x, f acc x = g acc x) : ∀ a : δ, l.foldl f a = l.foldl g a := by
  induction l with
  | nil => intro a; rfl
  | cons x l ih =>
    intro a
    rw [List.foldl_cons, List.foldl_cons, h, ih]

theorem foldl_flatMap_fold {α β δ : Type} (l : List α) (f : α → List β) (g : δ → β → δ) :
    ∀ a : δ, ((l.flatMap f).foldl g a) = l.foldl (fun acc x => (f x).foldl g acc) a := by
  induction l with
  | nil => intro a; rfl
  | cons x l ih =>
    intro a
    rw [List.flatMap_cons, List.foldl_append, List.foldl_cons, ih]

theorem file_index_eq_chunkFold (env : Env) (id : String) (content : List String)
    (inv : IdxL) :
    file_index env id content inv = (chunkFold id (docChunks env content) (inv, 0)).1 := by
  rw [file_index, chunkFold, docChunks, foldl_flatMap_fold]
  congr 1
  apply foldl_congr_fun
  intro acc nl
  rw [List.foldl_map]

theorem fold_run_char (id : String) (n : ℕ) (ts : List String) :
    ∀ (inv : IdxL) (pos : ℕ),
    (ts.foldl (fun acc3 t => (dictAppend acc3.1 t ⟨id, acc3.2, n⟩, acc3.2 + 1)) (inv, pos)).2
      = pos + ts.length ∧
    ∀ t2,
      lookupD
        ((ts.foldl (fun acc3 t => (dictAppend acc3.1 t ⟨id, acc3.2, n⟩, acc3.2 + 1)) (inv, pos)).1)
        t2
      = lookupD inv t2 ++ emitRun id n ts pos t2 := by
  induction ts with
  | nil =>
    intro inv pos
    exact ⟨by simp, fun t2 => by simp [emitRun]⟩
  | cons t ts ih =>
    intro inv pos
    rw [List.foldl_cons]
    obtain ⟨h1, h2⟩ := ih (dictAppend inv t ⟨id, pos, n⟩) (pos + 1)
    constructor
    · rw [h1]
      simp only [List.length_cons]
      omega
    · intro t2
      rw [h2 t2]
      have hda : lookupD (dictAppend inv t ⟨id, pos, n⟩) t2 =
          if t2 = t then lookupD inv t2 ++ [⟨id, pos, n⟩] else lookupD inv t2 := by
        rw [lookupD, lookup_dictAppend]
        by_cases h : t2 = t
        · subst h
          rw [if_pos rfl, if_pos rfl]
          simp [lookupD]
        · rw [if_neg h, if_neg h, lookupD]
      rw [hda, emitRun]
      by_cases h : t = t2
      · subst h
        rw [if_pos rfl, if_pos rfl]
        exact List.append_assoc _ _ _
      · rw [if_neg (fun hh => h hh.symm), if_neg h]
        simp

theorem chunkFold_cons (id : String) (ts : List String) (n : ℕ)
    (cs : List (List String × ℕ)) (acc : IdxL × ℕ) :
    chunkFold id ((ts, n) :: cs) acc =
      chunkFold id cs
        (ts.foldl (fun acc3 t => (dictAppend acc3.1 t ⟨id, acc3.2, n⟩, acc3.2 + 1)) acc) := rfl

theorem chunkFold_char (id : String) (cs : List (List String × ℕ)) :
    ∀ (inv : IdxL) (pos : ℕ),
    (chunkFold id cs (inv, pos)).2 = pos + (cs.map (fun c => c.1.length)).sum ∧
    ∀ t2, lookupD (chunkFold id cs (inv, pos)).1 t2 =
      lookupD inv t2 ++ emitChunks id cs pos t2 := by
  induction cs with
  | nil =>
    intro inv pos
    exact ⟨by simp [chunkFold], fun t2 => by simp [chunkFold, emitChunks]⟩
  | cons c cs ih =>
    intro inv pos
    obtain ⟨ts, n⟩ := c
    rw [chunkFold_cons]
    obtain ⟨hr2, hrl⟩ := fold_run_char id n ts inv pos
    rcases hR : ts.foldl (fun acc3 t => (dictAppend acc3.1 t ⟨id, acc3.2, n⟩, acc3.2 + 1))
      (inv, pos) with ⟨inv1, pos1⟩
    rw [hR] at hr2 hrl
    rw [hR]
    simp only at hr2 hrl
    obtain ⟨hc2, hcl⟩ := ih inv1 pos1
    constructor
    · rw [hc2, hr2]
      simp only [List.map_cons, List.sum_cons]
      omega
    · intro t2
      rw [hcl t2, hrl t2, emitChunks, hr2, List.append_assoc]

theorem lookupD_file_index (env : Env) (id : String) (content : List String)
    (inv : IdxL) (t : String) :
    lookupD (file_index env id content inv) t = lookupD inv t ++ docPost env id content t := by
  rw [file_index_eq_chunkFold]
  exact (chunkFold_char id (docChunks env content) inv 0).2 t

theorem lookupD_foldl_file_index (env : Env) :
    ∀ (fs : List (String × List String)) (inv : IdxL) (t : String),
    lookupD (fs.foldl (fun inv2 f => file_index env f.1 f.2 inv2) inv) t =
      lookupD inv t ++ (fs.map (fun f => docPost env f.1 f.2 t)).flatten := by
  intro fs
  induction fs with
  | nil => intro inv t; simp
  | cons f fs ih =>
    intro inv t
    rw [List.foldl_cons, ih, lookupD_file_index, List.map_cons, List.flatten_cons,
      List.append_assoc]

theorem lookupD_build_index (env : Env) (files : List (String × List String)) (t : String) :
    lookupD (build_index env files) t =
      ((sortByName files).map (fun f => docPost env f.1 f.2 t)).flatten := by
  rw [build_index, lookupD_foldl_file_index]
  simp [lookupD, List.lookup]

/-! ## The emission trace of a document -/

theorem traceFrom_map_pos (id : String) :
    ∀ (tl : List (String × ℕ)) (pos : ℕ),
    (traceFrom id pos tl).map (fun e => e.2.pos) = List.range' pos tl.length := by
  intro tl
  induction tl with
  | nil => intro pos; rfl
  | cons e tl ih =>
    intro pos
    obtain ⟨t, n⟩ := e
    rw [traceFrom, List.map_cons, ih, List.length_cons, List.range']

theorem traceFrom_append (id : String) :
    ∀ (l1 l2 : List (String × ℕ)) (pos : ℕ),
    traceFrom id pos (l1 ++ l2) = traceFrom id pos l1 ++ traceFrom id (pos + l1.length) l2 := by
  intro l1
  induction l1 with
  | nil => intro l2 pos; simp [traceFrom]
  | cons e l1 ih =>
    intro l2 pos
    obtain ⟨t, n⟩ := e
    rw [List.cons_append, traceFrom, traceFrom, ih, List.length_cons]
    simp only [List.cons_append, List.cons.injEq, true_and]
    congr 2
    omega

theorem traceFrom_pos_ge (id : String) :
    ∀ (tl : List (String × ℕ)) (pos : ℕ) (e : String × Posting),
    e ∈ traceFrom id pos tl → pos ≤ e.2.pos := by
  intro tl
  induction tl with
  | nil => intro pos e h; simp [traceFrom] at h
  | cons x tl ih =>
    intro pos e h
    obtain ⟨t, n⟩ := x
    rw [traceFrom, List.mem_cons] at h
    rcases h with rfl | h
    · exact le_refl _
    · exact le_trans (Nat.le_succ pos) (ih (pos + 1) e h)

theorem pairwise_lt_traceFrom (id : String) :
    ∀ (tl : List (String × ℕ)) (pos : ℕ),
    (traceFrom id pos tl).Pairwise (fun e e2 => e.2.pos < e2.2.pos) := by
  intro tl
  induction tl with
  | nil => intro pos; exact List.Pairwise.nil
  | cons x tl ih =>
    intro pos
    obtain ⟨t, n⟩ := x
    rw [traceFrom]
    refine List.Pairwise.cons ?_ (ih (pos + 1))
    intro e he
    exact lt_of_lt_of_le (Nat.lt_succ_self pos) (traceFrom_pos_ge id tl (pos + 1) e he)

theorem mem_traceFrom (id : String) :
    ∀ (tl : List (String × ℕ)) (pos : ℕ) (e : String × Posting),
    e ∈ traceFrom id pos tl →
    ∃ i, ∃ h : i < tl.length,
      e = ((tl.get ⟨i, h⟩).1, ⟨id, pos + i, (tl.get ⟨i, h⟩).2⟩) := by
  intro tl
  induction tl with
  | nil => intro pos e h; simp [traceFrom] at h
  | cons x tl ih =>
    intro pos e h
    obtain ⟨t, n⟩ := x
    rw [traceFrom, List.mem_cons] at h
    rcases h with rfl | h
    · exact ⟨0, by simp, by simp⟩
    · obtain ⟨i, hi, he⟩ := ih (pos + 1) e h
      refine ⟨i + 1, by simpa using hi, ?_⟩
      rw [he]
      simp only [List.get_cons_succ]
      have harith : pos + 1 + i = pos + (i + 1) := by omega
      rw [harith]

theorem emitRun_eq_filterMap (id : String) (n : ℕ) :
    ∀ (ts : List String) (pos : ℕ) (t2 : String),
    emitRun id n ts pos t2 =
      (traceFrom id pos (ts.map (fun t => (t, n)))).filterMap
        (fun e => if e.1 = t2 then some e.2 else none) := by
  intro ts
  induction ts with
  | nil => intro pos t2; rfl
  | cons t ts ih =>
    intro pos t2
    rw [emitRun, List.map_cons, traceFrom, List.filterMap_cons, ih]
    by_cases h : t = t2
    · rw [if_pos h, if_pos h]
      rfl
    · rw [if_neg h, if_neg h]
      rfl

theorem emitChunks_eq_filterMap (id : String) :
    ∀ (cs : List (List String × ℕ)) (pos : ℕ) (t2 : String),
    emitChunks id cs pos t2 =
      (traceFrom id pos (chunkTermLines cs)).filterMap
        (fun e => if e.1 = t2 then some e.2 else none) := by
  intro cs
  induction cs with
  | nil => intro pos t2; rfl
  | cons c cs ih =>
    intro pos t2
    obtain ⟨ts, n⟩ := c
    rw [emitChunks, chunkTermLines, List.flatMap_cons, traceFrom_append, List.filterMap_append,
      emitRun_eq_filterMap, ih, List.length_map]
    rfl

theorem docPost_eq_filterMap (env : Env) (id : String) (content : List String) (t : String) :
    docPost env id content t =
      (docTraceAll env id content).filterMap
        (fun e => if e.1 = t then some e.2 else none) := by
  rw [docPost, docTraceAll, docTermLines, emitChunks_eq_filterMap]

theorem filterMap_if_eq_map_filter (t : String) (l : List (String × Posting)) :
    l.filterMap (fun e => if e.1 = t then some e.2 else none) =
      (l.filter (fun e => e.1 == t)).map (fun e => e.2) := by
  induction l with
  | nil => rfl
  | cons e l ih =>
    rw [List.filterMap_cons, List.filter_cons]
    by_cases h : e.1 = t
    · rw [if_pos h, if_pos (beq_iff_eq.mpr h), List.map_cons, ih]
    · rw [if_neg h, if_neg (by simp [h] : ¬ ((e.1 == t) = true))]
      exact ih

theorem docPost_pairwise (env : Env) (id : String) (content : List String) (t : String) :
    (docPost env id content t).Pairwise (fun p q => p.pos < q.pos) := by
  rw [docPost_eq_filterMap, filterMap_if_eq_map_filter]
  have hsub : ((docTraceAll env id content).filter (fun e => e.1 == t)).Sublist
      (docTraceAll env id content) := List.filter_sublist _
  have hpw : ((docTraceAll env id content).filter (fun e => e.1 == t)).Pairwise
      (fun e e2 => e.2.pos < e2.2.pos) :=
    (pairwise_lt_traceFrom id _ 0).sublist hsub
  rw [List.pairwise_map]
  exact hpw

theorem mem_docPost_elim (env : Env) (id : String) (content : List String) (t : String)
    (p : Posting) (hp : p ∈ docPost env id content t) :
    (t, p) ∈ docTraceAll env id content := by
  rw [docPost_eq_filterMap, List.mem_filterMap] at hp
  obtain ⟨e, he, hfe⟩ := hp
  by_cases h : e.1 = t
  · rw [if_pos h] at hfe
    obtain rfl := Option.some.inj hfe
    rw [← h]
    exact he
  · rw [if_neg h] at hfe
    exact absurd hfe (by simp)

theorem docPost_id (env : Env) (id : String) (content : List String) (t : String)
    (p : Posting) (hp : p ∈ docPost env id content t) : p.id = id := by
  obtain ⟨i, hi, heq⟩ := mem_traceFrom id _ 0 (t, p) (mem_docPost_elim env id content t p hp)
  have : p = ⟨id, 0 + i, ((docTermLines env content).get ⟨i, hi⟩).2⟩ := congrArg Prod.snd heq
  rw [this]

theorem toList_inj {s t : String} (h : s.toList = t.toList) : s = t := by
  cases s with
  | mk d1 =>
    cases t with
    | mk d2 =>
      have hd : d1 = d2 := by simpa [String.toList] using h
      rw [hd]

theorem charListLe_iff_lex (x : List Char) :
    ∀ y : List Char, charListLe x y = true ↔ (x = y ∨ List.Lex (· < ·) x y) := by
  induction x with
  | nil =>
    intro y
    cases y with
    | nil => simp [charListLe]
    | cons b bs => exact ⟨fun _ => Or.inr List.Lex.nil, fun _ => rfl⟩
  | cons a as ih =>
    intro y
    cases y with
    | nil =>
      constructor
      · intro h
        exact absurd h (by simp [charListLe])
      · rintro (h | h)
        · exact absurd h (by simp)
        · cases h
    | cons b bs =>
      by_cases hab : a = b
      · subst hab
        have hred : charListLe (a :: as) (a :: bs) = charListLe as bs := by
          show (if a = a then charListLe as bs else decide (a < a)) = _
          rw [if_pos rfl]
        rw [hred, ih bs]
        constructor
        · rintro (rfl | h)
          · exact Or.inl rfl
          · exact Or.inr (List.Lex.cons h)
        · rintro (h | h)
          · exact Or.inl (by injection h)
          · cases h with
            | cons h2 => exact Or.inr h2
            | rel h2 => exact absurd h2 (lt_irrefl a)
      · have hred : charListLe (a :: as) (b :: bs) = decide (a < b) := by
          show (if a = b then charListLe as bs else decide (a < b)) = _
          rw [if_neg hab]
        rw [hred]
        constructor
        · intro h
          exact Or.inr (List.Lex.rel (of_decide_eq_true h))
        · rintro (h | h)
          · exact absurd (by injection h) hab
          · cases h with
            | cons h2 => exact absurd rfl hab
            | rel h2 => exact decide_eq_true h2

/-! ## The query engine -/

theorem foldl_preserve {α δ : Type} {P : δ → Prop} {f : δ → α → δ}
    (hf : ∀ acc x, P acc → P (f acc x)) :
    ∀ (l : List α) (a : δ), P a → P (l.foldl f a) := by
  intro l
  induction l with
  | nil => intro a h; exact h
  | cons x l ih => intro a h; exact ih _ (hf a x h)

theorem keys_dictUpd {β : Type} (dflt : β) (upd : β → β) :
    ∀ (l : List (String × β)) (k : String),
    (dictUpd dflt upd l k).map Prod.fst =
      if k ∈ l.map Prod.fst then l.map Prod.fst else l.map Prod.fst ++ [k] := by
  intro l
  induction l with
  | nil => intro k; simp [dictUpd]
  | cons p rest ih =>
    intro k
    obtain ⟨k0, v⟩ := p
    by_cases h : k0 = k
    · subst h
      simp [dictUpd]
    · rw [dictUpd, if_neg h]
      simp only [List.map_cons]
      rw [ih k]
      by_cases hm : k ∈ rest.map Prod.fst
      · rw [if_pos hm, if_pos (by simp [hm])]
      · have hnot : ¬ k ∈ k0 :: List.map Prod.fst rest := by
          intro hmem
          rcases List.mem_cons.mp hmem with hh | hh
          · exact h hh.symm
          · exact hm hh
        rw [if_neg hm, if_neg hnot]
        simp

theorem nodup_keys_dictUpd {β : Type} (dflt : β) (upd : β → β) (l : List (String × β))
    (k : String) (h : (l.map Prod.fst).Nodup) :
    ((dictUpd dflt upd l k).map Prod.fst).Nodup := by
  rw [keys_dictUpd]
  split
  · exact h
  · rename_i hm
    rw [List.nodup_append]
    refine ⟨h, List.nodup_singleton _, ?_⟩
    intro a ha hae
    rw [List.mem_singleton] at hae
    exact hm (hae ▸ ha)

theorem nodup_keys_buildMatch (inv : IdxL) (st : List String) :
    ((buildMatch inv st).map Prod.fst).Nodup := by
  rw [buildMatch]
  refine foldl_preserve (P := fun m : MatchT => (m.map Prod.fst).Nodup) ?_ st []
    List.nodup_nil
  intro m t hm
  cases inv.lookup t with
  | none => exact hm
  | some ps =>
    refine foldl_preserve (P := fun m2 : MatchT => (m2.map Prod.fst).Nodup) ?_ ps m hm
    intro m2 p hm2
    exact nodup_keys_dictUpd _ _ m2 p.id hm2

theorem lookup_none_not_mem {β : Type} :
    ∀ {l : List (String × β)} {k : String}, l.lookup k = none → k ∉ l.map Prod.fst := by
  intro l
  induction l with
  | nil => intro k _ h; simp at h
  | cons p rest ih =>
    intro k hl hm
    rw [List.lookup] at hl
    by_cases hk : k = p.1
    · rw [show (k == p.1) = true from beq_iff_eq.mpr hk] at hl
      exact Option.noConfusion hl
    · rw [show (k == p.1) = false from beq_eq_false_iff_ne.mpr hk] at hl
      rw [List.map_cons, List.mem_cons] at hm
      rcases hm with hm | hm
      · exact hk hm
      · exact ih hl hm

theorem nodup_keys_uniqueStep (acc : List RankedE) (e : RankedE)
    (h : (acc.map Prod.fst).Nodup) : ((uniqueStep acc e).map Prod.fst).Nodup := by
  cases hl : acc.lookup e.1 with
  | none =>
    rw [uniqueStep, hl]
    show (List.map Prod.fst (acc ++ [e])).Nodup
    rw [List.map_append, List.nodup_append]
    refine ⟨h, List.nodup_singleton _, ?_⟩
    intro a ha hae
    rw [show List.map Prod.fst [e] = [e.1] from rfl, List.mem_singleton] at hae
    exact lookup_none_not_mem hl (hae ▸ ha)
  | some sc =>
    rw [uniqueStep, hl]
    show (List.map Prod.fst
      (if sc.1 < e.2.1 then acc.map (fun x => if x.1 = e.1 then e else x) else acc)).Nodup
    by_cases hlt : sc.1 < e.2.1
    · rw [if_pos hlt]
      have hkeys : (List.map Prod.fst (acc.map (fun x => if x.1 = e.1 then e else x))) =
          List.map Prod.fst acc := by
        rw [List.map_map]
        apply List.map_congr_left
        intro x _
        by_cases hxe : x.1 = e.1
        · simp [Function.comp, hxe]
        · simp [Function.comp, hxe]
      rw [hkeys]
      exact h
    · rw [if_neg hlt]
      exact h

theorem nodup_keys_uniqueFold (tr : List RankedE) :
    ((uniqueFold tr).map Prod.fst).Nodup := by
  rw [uniqueFold]
  exact foldl_preserve (P := fun acc : List RankedE => (acc.map Prod.fst).Nodup)
    (fun acc e h => nodup_keys_uniqueStep acc e h) tr [] List.nodup_nil

theorem outLoop_ok (inv : IdxL) (df : String → Option (List String)) (ml : Bool) :
    ∀ (l : List RankedE) (printed out : List String),
    (∀ e ∈ l, e.1 ∉ printed) → (l.map Prod.fst).Nodup →
    ∃ o, outLoop inv df ml l printed out = .ok o := by
  intro l
  induction l with
  | nil => intro printed out _ _; exact ⟨out, rfl⟩
  | cons e rest ih =>
    intro printed out hnp hnd
    rw [outLoop, if_neg (hnp e (List.mem_cons_self _ _))]
    rw [List.map_cons, List.nodup_cons] at hnd
    apply ih
    · intro e2 he2 hmem
      rcases List.mem_cons.mp hmem with h | h
      · exact hnd.1 (h ▸ List.mem_map_of_mem Prod.fst he2)
      · exact hnp e2 (List.mem_cons_of_mem _ he2) h
    · exact hnd.2

theorem outLoop_both (inv : IdxL) (df df2 : String → Option (List String)) (ml : Bool) :
    ∀ (l : List RankedE) (printed out out2 : List String),
    (∃ o1 o2, outLoop inv df ml l printed out = .ok o1 ∧
      outLoop inv df2 ml l printed out2 = .ok o2) ∨
    (outLoop inv df ml l printed out = .error .dupAssert ∧
      outLoop inv df2 ml l printed out2 = .error .dupAssert) := by
  intro l
  induction l with
  | nil => intro printed out out2; exact Or.inl ⟨out, out2, rfl, rfl⟩
  | cons e rest ih =>
    intro printed out out2
    rw [outLoop, outLoop]
    by_cases h : e.1 ∈ printed
    · rw [if_pos h, if_pos h]
      exact Or.inr ⟨rfl, rfl⟩
    · rw [if_neg h, if_neg h]
      exact ih _ _ _

/-- `search` with its let-bindings resolved, for case analysis. -/
theorem search_eq (env : Env) (inv : IdxL) (df : String → Option (List String)) (q : String) :
    search env inv df q =
      if (preprocess_sentence env (queryOf q)).isEmpty then .ok ([], [])
      else
        if (uniqueFold ((buildMatch inv (preprocess_sentence env (queryOf q))).map
            (scoreEntry (preprocess_sentence env (queryOf q))))).all
            (fun e => (pyInt? e.1).isSome) then
          match outLoop inv df (isMarked q)
              ((uniqueFold ((buildMatch inv (preprocess_sentence env (queryOf q))).map
                (scoreEntry (preprocess_sentence env (queryOf q))))).insertionSort rankLe)
              [] [] with
          | .ok out =>
            .ok ((uniqueFold ((buildMatch inv (preprocess_sentence env (queryOf q))).map
              (scoreEntry (preprocess_sentence env (queryOf q))))).insertionSort rankLe, out)
          | .error err => .error err
        else .error .intParse := rfl

/-- **C8.** A query whose normalized term list is empty returns the empty
result list and prints nothing; it is not an error. -/
theorem C8_empty_query_no_output (env : Env) (inv : IdxL)
    (docFiles : String → Option (List String)) (q : String)
    (h : preprocess_sentence env (queryOf q) = []) :
    search env inv docFiles q = .ok ([], []) := by
  rw [search_eq, h]
  rfl

/-- Witness for C8: the query `...` normalizes to the empty term list and
the search returns the empty result with no output. -/
theorem C8_empty_query_no_output_witness :
    preprocess_sentence env0 (queryOf "...") = [] ∧
    search env0 inv1 df0 "..." = .ok ([], []) :=
  ⟨by decide, C8_empty_query_no_output env0 inv1 df0 "..." (by decide)⟩

/-- **C5.** `search` never aborts on the duplicate-id assertion — the
grouping by id and the highest-score deduplication make its error branch
unreachable — and a returned ranked list carries pairwise-distinct
document ids. -/
theorem C5_ranked_ids_nodup (env : Env) (inv : IdxL)
    (docFiles : String → Option (List String)) (q : String) :
    search env inv docFiles q ≠ .error .dupAssert ∧
    (∀ r out, search env inv docFiles q = .ok (r, out) → (r.map Prod.fst).Nodup) := by
  rw [search_eq]
  by_cases hst : (preprocess_sentence env (queryOf q)).isEmpty
  · rw [if_pos hst]
    refine ⟨by simp, fun r out h => ?_⟩
    rw [Except.ok.injEq, Prod.mk.injEq] at h
    rw [← h.1]
    simp
  · rw [if_neg hst]
    by_cases hall : (uniqueFold ((buildMatch inv (preprocess_sentence env (queryOf q))).map
        (scoreEntry (preprocess_sentence env (queryOf q))))).all
        (fun e => (pyInt? e.1).isSome)
    · rw [if_pos hall]
      have hnd : (((uniqueFold ((buildMatch inv (preprocess_sentence env (queryOf q))).map
          (scoreEntry (preprocess_sentence env (queryOf q))))).insertionSort rankLe).map
            Prod.fst).Nodup := by
        have hperm := List.perm_insertionSort rankLe
          (uniqueFold ((buildMatch inv (preprocess_sentence env (queryOf q))).map
            (scoreEntry (preprocess_sentence env (queryOf q)))))
        exact ((hperm.map Prod.fst).nodup_iff).mpr (nodup_keys_uniqueFold _)
      obtain ⟨o, ho⟩ := outLoop_ok inv docFiles (isMarked q) _ [] []
        (by intro e _ hmem; simp at hmem) hnd
      rw [ho]
      refine ⟨by simp, fun r out h => ?_⟩
      rw [Except.ok.injEq, Prod.mk.injEq] at h
      rw [← h.1]
      exact hnd
    · rw [if_neg hall]
      refine ⟨fun h => ?_, fun r out h => by simp at h⟩
      rw [Except.error.injEq] at h
      exact SearchErr.noConfusion h

/-- Witness for C5 at the concrete two-document index `inv1` and query
`x`: both conjuncts instantiated. -/
theorem C5_ranked_ids_nodup_witness :
    search env0 inv1 df0 "x" ≠ .error .dupAssert ∧
    (∀ r out, search env0 inv1 df0 "x" = .ok (r, out) → (r.map Prod.fst).Nodup) :=
  C5_ranked_ids_nodup env0 inv1 df0 "x"

/-- Evaluation of the query `x` on the index `inv1`: the two documents
receive the same score and come out in the order `9`, `10` — ascending
*integer* value of the ids. -/
theorem search_env0_inv1_x :
    search env0 inv1 df0 "x" = .ok ([e9, e10], ["9", "10"]) := by
  have hsearch : search env0 inv1 df0 "x" =
      (match outLoop inv1 df0 false (([e9, e10] : List RankedE).insertionSort rankLe) [] [] with
        | .ok out => .ok (([e9, e10] : List RankedE).insertionSort rankLe, out)
        | .error err => .error err) := rfl
  have hr : rankLe e9 e10 := Or.inr ⟨rfl, by decide⟩
  have h1 : List.orderedInsert rankLe e10 [] = [e10] := rfl
  have hsorted : ([e9, e10] : List RankedE).insertionSort rankLe = [e9, e10] := by
    show List.orderedInsert rankLe e9 (List.orderedInsert rankLe e10 []) = [e9, e10]
    rw [h1, List.orderedInsert, if_pos hr]
  have hout : outLoop inv1 df0 false [e9, e10] [] [] = .ok ["9", "10"] := by decide
  rw [hsearch, hsorted, hout]

/-- **C1, counterexample.**  On the index `inv1` the documents `9` and
`10` tie on rounded score, and `search` outputs `9` before `10` — the
ascending order of `int(id)` — whereas ascending *document-id* order on
the id strings would put `"10"` before `"9"`: the ranked sequence is not
ordered as the claim states. -/
theorem C1_id_order_counterexample :
    search env0 inv1 df0 "x" = .ok ([e9, e10], ["9", "10"]) ∧
    round10 e9.2.1 = round10 e10.2.1 ∧
    ¬ specRankOrderStringId [e9, e10] := by
  refine ⟨search_env0_inv1_x, rfl, ?_⟩
  intro h
  rw [specRankOrderStringId] at h
  obtain ⟨h1, -⟩ := List.pairwise_cons.mp h
  rcases h1 e10 (List.mem_cons_self _ _) with hlt | ⟨-, hlt⟩
  · exact lt_irrefl _ hlt
  · cases hlt with
    | rel h2 => exact absurd h2 (by decide)

/-- **C1, amended.**  Every ranked sequence `search` returns is sorted in
descending order of score rounded to 10 decimal digits, with ties in
ascending order of the *integer value* `int(id)` of the document id (the
id string itself parsed as an integer; a ranked id that does not parse
makes the whole query fail instead). -/
theorem C1_ranked_descending_rounded (env : Env) (inv : IdxL)
    (docFiles : String → Option (List String)) (q : String)
    (r : List RankedE) (out : List String)
    (h : search env inv docFiles q = .ok (r, out)) :
    r.Pairwise (fun a b =>
      round10 b.2.1 < round10 a.2.1 ∨
      (round10 a.2.1 = round10 b.2.1 ∧ (pyInt? a.1).getD 0 ≤ (pyInt? b.1).getD 0)) := by
  rw [search_eq] at h
  by_cases hst : (preprocess_sentence env (queryOf q)).isEmpty
  · rw [if_pos hst, Except.ok.injEq, Prod.mk.injEq] at h
    rw [← h.1]
    exact List.Pairwise.nil
  · rw [if_neg hst] at h
    by_cases hall : (uniqueFold ((buildMatch inv (preprocess_sentence env (queryOf q))).map
        (scoreEntry (preprocess_sentence env (queryOf q))))).all
        (fun e => (pyInt? e.1).isSome)
    · rw [if_pos hall] at h
      cases ho : outLoop inv docFiles (isMarked q)
          ((uniqueFold ((buildMatch inv (preprocess_sentence env (queryOf q))).map
            (scoreEntry (preprocess_sentence env (queryOf q))))).insertionSort rankLe)
          [] [] with
      | ok o =>
        rw [ho, Except.ok.injEq, Prod.mk.injEq] at h
        rw [← h.1]
        have hs := List.sorted_insertionSort rankLe
          (uniqueFold ((buildMatch inv (preprocess_sentence env (queryOf q))).map
            (scoreEntry (preprocess_sentence env (queryOf q)))))
        exact hs.imp (fun hab => hab)
      | error o =>
        rw [ho] at h
        exact absurd h (by simp)
    · rw [if_neg hall] at h
      exact absurd h (by simp)

/-- Witness for the amended C1: the concrete ranked result for query `x`
on `inv1` satisfies the descending-rounded-score / ascending-`int(id)`
pairwise order. -/
theorem C1_ranked_descending_rounded_witness :
    search env0 inv1 df0 "x" = .ok ([e9, e10], ["9", "10"]) ∧
    ([e9, e10] : List RankedE).Pairwise (fun a b =>
      round10 b.2.1 < round10 a.2.1 ∨
      (round10 a.2.1 = round10 b.2.1 ∧ (pyInt? a.1).getD 0 ≤ (pyInt? b.1).getD 0)) :=
  ⟨search_env0_inv1_x,
    C1_ranked_descending_rounded env0 inv1 df0 "x" [e9, e10] ["9", "10"] search_env0_inv1_x⟩

theorem filterMap_ite_nat (g : ℕ → String) (P : ℕ → Prop) [DecidablePred P] :
    ∀ l : List ℕ,
    l.filterMap (fun i => if P i then some (g i) else none) =
      (l.filter (fun i => decide (P i))).map g := by
  intro l
  induction l with
  | nil => rfl
  | cons i l ih =>
    rw [List.filterMap_cons, List.filter_cons]
    by_cases h : P i
    · rw [if_pos h, if_pos (by simpa using h), List.map_cons, ih]
    · rw [if_neg h, if_neg (by simpa using h)]
      exact ih

theorem sortedDedup_sorted (l : List ℕ) : (sortedDedup l).Sorted (· < ·) := by
  rw [sortedDedup]
  have hle : ((dedupFirst l).insertionSort (fun a b => a ≤ b)).Sorted (fun a b => a ≤ b) :=
    List.sorted_insertionSort _ _
  have hnd : ((dedupFirst l).insertionSort (fun a b => a ≤ b)).Nodup :=
    ((List.perm_insertionSort _ _).nodup_iff).mpr (nodup_dedupFirstAux [] l)
  exact List.Sorted.lt_of_le hle hnd

theorem mem_sortedDedup (l : List ℕ) (i : ℕ) : i ∈ sortedDedup l ↔ i ∈ l := by
  rw [sortedDedup, (List.perm_insertionSort _ _).mem_iff, dedupFirst, mem_dedupFirstAux]
  simp

theorem endsNL_ensureNL (s : String) : endsNL (ensureNL s) = true := by
  rw [ensureNL]
  by_cases h : endsNL s = true
  · rw [if_pos h]
    exact h
  · rw [if_neg h, endsNL]
    have hdata : (s ++ String.mk ['\n']).toList = s.toList ++ ['\n'] := rfl
    rw [show ("\n" : String) = String.mk ['\n'] from rfl, hdata, List.getLast?_concat]
    rfl

/-- **C7.** The preview: a missing backing file yields no output (and no
error — `print_match` is total); with a present file the preview prints,
in strictly ascending order without duplicates, exactly the existing
lines whose numbers are recorded for some chosen `(term, position)` pair
of this document, each emitted string newline-terminated; and the
document store has no influence on the ranked sequence `search` returns
(nor on whether it fails). -/
theorem C7_preview_lines :
    (∀ (inv : IdxL) (df : String → Option (List String)) (id : String)
      (chosen : List (String × ℕ)), df id = none → print_match inv df id chosen = []) ∧
    (∀ (inv : IdxL) (df : String → Option (List String)) (id : String)
      (chosen : List (String × ℕ)) (lines : List String), df id = some lines →
      (∀ s ∈ print_match inv df id chosen, endsNL s = true) ∧
      ∃ L : List ℕ,
        print_match inv df id chosen = L.map (fun i => ensureNL (lines.getD i "")) ∧
        L.Sorted (· < ·) ∧
        (∀ i, i ∈ L ↔ (i < lines.length ∧ ∃ tp ∈ chosen,
          ∃ p ∈ (inv.lookup tp.1).getD [], p.id = id ∧ p.pos = tp.2 ∧ p.line = i))) ∧
    (∀ (env : Env) (inv : IdxL) (df df2 : String → Option (List String)) (q : String),
      Except.map Prod.fst (search env inv df q) =
        Except.map Prod.fst (search env inv df2 q)) := by
  refine ⟨?_, ?_, ?_⟩
  · intro inv df id chosen h
    rw [print_match, h]
  · intro inv df id chosen lines h
    rw [print_match, h]
    simp only
    set lineIds := chosen.flatMap (fun tp =>
      ((inv.lookup tp.1).getD []).filterMap (fun p =>
        if p.id = id ∧ p.pos = tp.2 then some p.line else none)) with hlineIds
    rw [filterMap_ite_nat (fun i => ensureNL (lines.getD i "")) (fun i => i < lines.length)]
    constructor
    · intro s hs
      rw [List.mem_map] at hs
      obtain ⟨i, _, rfl⟩ := hs
      exact endsNL_ensureNL _
    · refine ⟨(sortedDedup lineIds).filter (fun i => decide (i < lines.length)), rfl, ?_, ?_⟩
      · exact (sortedDedup_sorted lineIds).sublist (List.filter_sublist _)
      · intro i
        rw [List.mem_filter, mem_sortedDedup, decide_eq_true_eq]
        constructor
        · rintro ⟨hmem, hlt⟩
          refine ⟨hlt, ?_⟩
          rw [hlineIds, List.mem_flatMap] at hmem
          obtain ⟨tp, htp, hmem2⟩ := hmem
          rw [List.mem_filterMap] at hmem2
          obtain ⟨p, hp, hcond⟩ := hmem2
          by_cases hc : p.id = id ∧ p.pos = tp.2
          · rw [if_pos hc] at hcond
            exact ⟨tp, htp, p, hp, hc.1, hc.2, Option.some.inj hcond⟩
          · rw [if_neg hc] at hcond
            exact absurd hcond (by simp)
        · rintro ⟨hlt, tp, htp, p, hp, h1, h2, h3⟩
          refine ⟨?_, hlt⟩
          rw [hlineIds, List.mem_flatMap]
          refine ⟨tp, htp, ?_⟩
          rw [List.mem_filterMap]
          exact ⟨p, hp, by rw [if_pos ⟨h1, h2⟩, h3]⟩
  · intro env inv df df2 q
    rw [search_eq, search_eq]
    by_cases hst : (preprocess_sentence env (queryOf q)).isEmpty
    · rw [if_pos hst, if_pos hst]
    · rw [if_neg hst, if_neg hst]
      by_cases hall : (uniqueFold ((buildMatch inv (preprocess_sentence env (queryOf q))).map
          (scoreEntry (preprocess_sentence env (queryOf q))))).all
          (fun e => (pyInt? e.1).isSome)
      · rw [if_pos hall, if_pos hall]
        rcases outLoop_both inv df df2 (isMarked q)
            ((uniqueFold ((buildMatch inv (preprocess_sentence env (queryOf q))).map
              (scoreEntry (preprocess_sentence env (queryOf q))))).insertionSort rankLe)
            [] [] [] with ⟨o1, o2, h1, h2⟩ | ⟨h1, h2⟩
        · rw [h1, h2]
          rfl
        · rw [h1, h2]
      · rw [if_neg hall, if_neg hall]

/-- Witness for C7: the missing-file case yields no preview for `9` on
`df0`; with the backing file present (`df1`, one line `hello` without a
trailing newline) the characterization holds; and the ranked part of the
query `x` does not depend on the document store. -/
theorem C7_preview_lines_witness :
    print_match inv1 df0 "9" [("x", 0)] = [] ∧
    (∀ s ∈ print_match inv1 df1 "9" [("x", 0)], endsNL s = true) ∧
    (∃ L : List ℕ,
      print_match inv1 df1 "9" [("x", 0)] = L.map (fun i => ensureNL (["hello"].getD i "")) ∧
      L.Sorted (· < ·) ∧
      (∀ i, i ∈ L ↔ (i < ([("hello" : String)]).length ∧ ∃ tp ∈ [(("x" : String), (0 : ℕ))],
        ∃ p ∈ (inv1.lookup tp.1).getD [], p.id = "9" ∧ p.pos = tp.2 ∧ p.line = i))) ∧
    Except.map Prod.fst (search env0 inv1 df0 "x") =
      Except.map Prod.fst (search env0 inv1 df1 "x") :=
  ⟨C7_preview_lines.1 inv1 df0 "9" [("x", 0)] rfl,
    (C7_preview_lines.2.1 inv1 df1 "9" [("x", 0)] ["hello"] rfl).1,
    (C7_preview_lines.2.1 inv1 df1 "9" [("x", 0)] ["hello"] rfl).2,
    C7_preview_lines.2.2 env0 inv1 df0 df1 "x"⟩

/-- **C6.** In the built inverted index, each term's posting list is the
concatenation, over the corpus documents in ascending file-name order
(lexicographic on code points), of that document's occurrence sequence of
the term; every contributed posting carries its document's id; the
positions are non-decreasing (indeed strictly increasing) within each
document; and the list is *not* in general sorted by position across
documents, as the concrete two-document corpus `files6` shows. -/
theorem C6_posting_list_order :
    (∀ env files t,
      lookupD (build_index env files) t =
        ((sortByName files).map (fun f => docPost env f.1 f.2 t)).flatten) ∧
    (∀ files : List (String × List String),
      (sortByName files).Pairwise
        (fun a b => a.1 = b.1 ∨ List.Lex (· < ·) a.1.toList b.1.toList)) ∧
    (∀ env id content t, ∀ p ∈ docPost env id content t, p.id = id) ∧
    (∀ env id content t,
      ((docPost env id content t).map (fun p => p.pos)).Sorted (· ≤ ·)) ∧
    ¬ ((lookupD (build_index env0 files6) "x").map (fun p => p.pos)).Sorted (· ≤ ·) := by
  refine ⟨lookupD_build_index, ?_, docPost_id, ?_, by decide⟩
  · intro files
    have hs : (sortByName files).Sorted
        (fun a b => charListLe a.1.toList b.1.toList = true) :=
      List.sorted_insertionSort _ files
    refine List.Pairwise.imp ?_ hs
    intro a b hab
    rcases (charListLe_iff_lex _ _).mp hab with h | h
    · exact Or.inl (toList_inj h)
    · exact Or.inr h
  · intro env id content t
    rw [List.Sorted, List.pairwise_map]
    exact (docPost_pairwise env id content t).imp (fun h => le_of_lt h)

/-- **C10.** During indexing of a single document the position counter
advances exactly once per emitted term: the positions along the
document's emission trace are exactly `0, 1, 2, …`; each term's
per-document posting list is precisely the trace entries of that term; and
hence any two postings of the document that share a global position are
the same posting of the same term — positions are pairwise distinct
across all terms and strictly increasing in emission order. -/
theorem C10_positions_strictly_increasing :
    ∀ env id content,
    ((docTraceAll env id content).map (fun e => e.2.pos) =
      List.range (docTermLines env content).length) ∧
    (∀ t, docPost env id content t =
      (docTraceAll env id content).filterMap
        (fun e => if e.1 = t then some e.2 else none)) ∧
    (∀ t t2 p q, p ∈ docPost env id content t → q ∈ docPost env id content t2 →
      p.pos = q.pos → t = t2 ∧ p = q) := by
  intro env id content
  refine ⟨?_, docPost_eq_filterMap env id content, ?_⟩
  · rw [docTraceAll, traceFrom_map_pos, List.range_eq_range']
  · intro t t2 p q hp hq hpq
    obtain ⟨i, hi, hei⟩ := mem_traceFrom id _ 0 (t, p) (mem_docPost_elim env id content t p hp)
    obtain ⟨j, hj, hej⟩ := mem_traceFrom id _ 0 (t2, q) (mem_docPost_elim env id content t2 q hq)
    have hpi : p = ⟨id, 0 + i, ((docTermLines env content).get ⟨i, hi⟩).2⟩ :=
      congrArg Prod.snd hei
    have hqj : q = ⟨id, 0 + j, ((docTermLines env content).get ⟨j, hj⟩).2⟩ :=
      congrArg Prod.snd hej
    have hij : i = j := by
      have h1 : p.pos = 0 + i := by rw [hpi]
      have h2 : q.pos = 0 + j := by rw [hqj]
      omega
    subst hij
    have ht : t = t2 := by
      have h1 : t = ((docTermLines env content).get ⟨i, hi⟩).1 := congrArg Prod.fst hei
      have h2 : t2 = ((docTermLines env content).get ⟨i, hj⟩).1 := congrArg Prod.fst hej
      rw [h1, h2]
    exact ⟨ht, by rw [hpi, hqj]⟩

/-- Witness for C6: the join characterization instantiated on the
two-document corpus `files6`, and the id conjunct discharged on a
concrete posting of the `leaves` corpus. -/
theorem C6_posting_list_order_witness :
    lookupD (build_index env0 files6) "x" =
      ((sortByName files6).map (fun f => docPost env0 f.1 f.2 "x")).flatten ∧
    (⟨"d", 0, 0⟩ : Posting).id = "d" :=
  ⟨C6_posting_list_order.1 env0 files6 "x",
    C6_posting_list_order.2.2.1 envLeaf "d" ["leaves"] "leaf" ⟨"d", 0, 0⟩ (by decide)⟩

/-- Witness for C10 on the one-document corpus containing `leaves`:
the trace positions are `range`, and the cross-term distinctness
conjunct discharged on a concrete posting. -/
theorem C10_positions_strictly_increasing_witness :
    ((docTraceAll envLeaf "d" ["leaves"]).map (fun e => e.2.pos) =
      List.range (docTermLines envLeaf ["leaves"]).length) ∧
    ("leaf" = "leaf" ∧ (⟨"d", 0, 0⟩ : Posting) = ⟨"d", 0, 0⟩) :=
  ⟨(C10_positions_strictly_increasing envLeaf "d" ["leaves"]).1,
    (C10_positions_strictly_increasing envLeaf "d" ["leaves"]).2.2 "leaf" "leaf"
      ⟨"d", 0, 0⟩ ⟨"d", 0, 0⟩ (by decide) (by decide) rfl⟩

end RRSE
